import Mathlib

set_option maxHeartbeats 3000000

/-!
Verification of the deep-diff-esm comparison and replay engine.

This file shallowly embeds the engine of `src/deepDiff.js` (the recursive
diff walk, the apply/revert replay functions) and the utilities of
`utils.js` (`realTypeOf`, `hashThisString`, `getOrderIndependentHash`,
`arrayRemove`) as executable Lean functions, and proves or refutes the
frozen claims about them.

Modelling conventions, fixed once here:

* JavaScript values are modelled by the inductive tree type `JVal`
  (undefined/null/booleans/integers/NaN/strings/dates/regexps/arrays/
  plain objects).  Numbers are modelled as integers plus a distinct NaN
  value (the engine performs no arithmetic on numbers other than the
  32-bit string hash, date subtraction and NaN tests).  The `Math`
  singleton, symbol keys and sparse-array holes are outside the model:
  a missing array slot is represented by an `undef` element.
* The mutations the JavaScript code performs in place (array in-place
  sort, apply/revert writes) are modelled by state passing: each embedded
  function returns the post-call value of every input it may mutate.
* JavaScript reference identity (`===`) on two distinct heap objects
  coincides, on tree-shaped acyclic values, with structural equality of
  the subtrees reached by the traversal, which is how it is embedded
  here.  Cyclic values, which the tree type cannot represent, are
  treated separately by a heap-based embedding further down (`HVal`,
  `deepDiffH`), used for the cycle-termination claim.
* The recursive walk is embedded with an explicit fuel parameter; `none`
  means the fuel ran out.  Fuel bounds recursion depth, so any fuel
  larger than the value depth (tree model) or heap size (heap model)
  is sufficient.
* The `prefilter`/`normalize` hooks are not exercised by any claim; the
  embedding fixes them to their absent (undefined) default, under which
  the corresponding source block is skipped entirely.
-/
/-- Property keys: JavaScript string keys and numeric array indices
(the engine only ever produces non-negative indices). -/
inductive Key where
  | str (s : String)
  | idx (n : Nat)
deriving DecidableEq, Repr

/-- JavaScript property access coerces every key to a string
(`obj[2]` reads property `"2"`). -/
def Key.toKeyString : Key → String
  | .str s => s
  | .idx n => toString n

/-- The modelled JavaScript value universe (see the header comment). -/
inductive JVal where
  | undef
  | null
  | bool (b : Bool)
  | num (n : Int)
  | nan
  | str (s : String)
  | date (t : Int)
  | regexp (source : String)
  | arr (elems : List JVal)
  | obj (fields : List (String × JVal))

mutual

/-- Structural (boolean) equality on modelled values; `deriving` cannot
handle the nested lists, so it is spelled out. -/
def JVal.beq : JVal → JVal → Bool
  | .undef, .undef => true
  | .null, .null => true
  | .bool a, .bool b => a == b
  | .num a, .num b => a == b
  | .nan, .nan => true
  | .str a, .str b => a == b
  | .date a, .date b => a == b
  | .regexp a, .regexp b => a == b
  | .arr a, .arr b => JVal.beqList a b
  | .obj a, .obj b => JVal.beqFields a b
  | _, _ => false

/-- Elementwise equality of value lists. -/
def JVal.beqList : List JVal → List JVal → Bool
  | [], [] => true
  | a :: as, b :: bs => JVal.beq a b && JVal.beqList as bs
  | _, _ => false

/-- Elementwise equality of field lists. -/
def JVal.beqFields : List (String × JVal) → List (String × JVal) → Bool
  | [], [] => true
  | (k, v) :: as, (l, w) :: bs => k == l && JVal.beq v w && JVal.beqFields as bs
  | _, _ => false

end

instance : BEq JVal := ⟨JVal.beq⟩

/-- The JavaScript `typeof` operator on modelled values.  `typeof null`
is `"object"`, as in JavaScript. -/
def jsTypeof : JVal → String
  | .undef => "undefined"
  | .bool _ => "boolean"
  | .num _ => "number"
  | .nan => "number"
  | .str _ => "string"
  | _ => "object"

/-- Embeds `realTypeOf` from `utils.js`.  The source discriminates with
`Array.isArray`, a `[object Date]` tag check and a `/^\/.*\//` test on
`toString()`; on the modelled universe those tests classify exactly by
constructor (a plain object or date never stringifies to a `/…/` form,
and the array test precedes the regexp test). -/
def realTypeOf : JVal → String
  | .null => "null"
  | .arr _ => "array"
  | .date _ => "date"
  | .regexp _ => "regexp"
  | .obj _ => "object"
  | v => jsTypeof v

/-- JavaScript truthiness of a modelled value. -/
def jsTruthy : JVal → Bool
  | .undef => false
  | .null => false
  | .bool b => b
  | .num n => n != 0
  | .nan => false
  | .str s => s != ""
  | _ => true

/-- JavaScript strict equality `===` on modelled values.  `NaN === NaN`
is false.  For the four object kinds the model substitutes structural
equality for reference identity; the engine compares two objects with
`===` only inside the cycle-guard scan (ancestor against descendant) and
in branches reached only when the scan fired, where on tree-shaped
values the two notions agree (an ancestor is never structurally equal
to a strict subterm). -/
def jsStrictEq (a b : JVal) : Bool :=
  match a, b with
  | .nan, _ => false
  | _, .nan => false
  | x, y => x == y

/-- The `isNaN` test as applied by the engine (only ever reached under a
`typeof lhs === 'number'` guard, so no string coercion arises). -/
def jsIsNaN : JVal → Bool
  | .nan => true
  | _ => false

/-- Looks up the first binding of a key in an object's field list
(JavaScript objects cannot carry duplicate keys; the model reads the
first matching field). -/
def objLookup (fields : List (String × JVal)) (k : String) : JVal :=
  match fields.find? (fun f => f.1 == k) with
  | some f => f.2
  | none => (.undef)

/-- Replaces the first binding of `k`, or appends a new binding, as a
JavaScript property write does (insertion order preserved, new keys at
the end). -/
def objSet (fields : List (String × JVal)) (k : String) (v : JVal) :
    List (String × JVal) :=
  match fields with
  | [] => [(k, v)]
  | f :: rest => if f.1 == k then (k, v) :: rest else f :: objSet rest k v

/-- Removes every binding of `k` (a JavaScript object has at most one). -/
def objDel (fields : List (String × JVal)) (k : String) :
    List (String × JVal) :=
  fields.filter (fun f => f.1 != k)

/-- Pads a list with `undef` up to length `n` (modelling the holes
JavaScript creates when an array is extended by an out-of-bounds
write; holes are represented as `undef` elements). -/
def padTo (l : List JVal) (n : Nat) : List JVal :=
  l ++ List.replicate (n - l.length) (.undef)

/-- Whether `getOwnPropertyDescriptor(v, k)` is truthy in the model:
own-property existence.  For arrays, an index inside the bounds (the
model has no holes) or the `length` property; for strings, an index
inside the bounds or `length`; dates and regexps own no enumerable or
index properties the engine could ask about. -/
def hasOwnProp (v : JVal) (k : Key) : Bool :=
  match v with
  | .obj fields => (fields.find? (fun f => f.1 == k.toKeyString)).isSome
  | .arr elems =>
    match k with
    | .idx n => decide (n < elems.length)
    | .str s => s == "length" || (match s.toNat? with
        | some n => decide (n < elems.length) && toString n == s
        | none => false)
  | .str s =>
    match k with
    | .idx n => decide (n < s.length)
    | .str t => t == "length"
  | _ => false

/-- Reading `it[k]` in JavaScript: throws (`.error`) on `undefined` and
`null`, yields `undefined` for absent properties, reads string indices
and `length`, array elements and `length`, and object fields.  Dates
and regexps own no properties the replay engine can reach. -/
def getProp (v : JVal) (k : Key) : Except Unit JVal :=
  match v with
  | .undef => .error ()
  | .null => .error ()
  | .obj fields => .ok (objLookup fields k.toKeyString)
  | .arr elems =>
    match k with
    | .idx n => .ok (elems.getD n .undef)
    | .str s =>
      if s == "length" then .ok (.num elems.length)
      else match s.toNat? with
        | some n => if toString n == s then .ok (elems.getD n .undef) else .ok .undef
        | none => .ok .undef
  | .str s =>
    match k with
    | .idx n => .ok (if h : n < s.length then .str (String.mk [s.data.get ⟨n, h⟩])
        else .undef)
    | .str t => .ok (if t == "length" then .num s.length else .undef)
  | _ => .ok (.undef)

/-- Writing `it[k] = w` in strict-mode JavaScript (the sources are ES
modules, hence strict): throws on `undefined`, `null` and on every
primitive; writes object fields in place; writes array slots, padding
with holes (modelled as `undef`) when the index is past the end.  A
non-index string key on an array and any write to a date or regexp
expando are dropped unchanged: the replay engine never produces such a
write for the inputs the theorems below quantify over. -/
def setProp (v : JVal) (k : Key) (w : JVal) : Except Unit JVal :=
  match v with
  | .obj fields => .ok (.obj (objSet fields k.toKeyString w))
  | .arr elems =>
    match k with
    | .idx n =>
      if n < elems.length then .ok (.arr (elems.set n w))
      else .ok (.arr (padTo elems n ++ [w]))
    | .str s =>
      match s.toNat? with
      | some n =>
        if toString n == s then
          if n < elems.length then .ok (.arr (elems.set n w))
          else .ok (.arr (padTo elems n ++ [w]))
        else .ok (.arr elems)
      | none => .ok (.arr elems)
  | .date t => .ok (.date t)
  | .regexp s => .ok (.regexp s)
  | _ => .error ()

/-- Executing `delete it[k]` in strict-mode JavaScript: throws on
`undefined`/`null` (no object coercion) and on non-configurable own
properties (string indices, `length`); removes object fields; leaves a
hole (modelled `undef`, length unchanged) at a deleted array index;
is a silent no-op everywhere else. -/
def delProp (v : JVal) (k : Key) : Except Unit JVal :=
  match v with
  | .undef => .error ()
  | .null => .error ()
  | .obj fields => .ok (.obj (objDel fields k.toKeyString))
  | .arr elems =>
    match k with
    | .idx n =>
      if n < elems.length then .ok (.arr (elems.set n .undef)) else .ok (.arr elems)
    | .str s =>
      if s == "length" then .error ()
      else match s.toNat? with
        | some n =>
          if toString n == s && decide (n < elems.length) then
            .ok (.arr (elems.set n .undef))
          else .ok (.arr elems)
        | none => .ok (.arr elems)
  | .str s =>
    match k with
    | .idx n => if n < s.length then .error () else .ok (.str s)
    | .str t => if t == "length" then .error () else .ok (.str s)
  | v => .ok v

/-- Embeds `arrayRemove(arr, from)` from `utils.js` as called by the
replay engine (the optional `to` argument is never passed): keep the
first `frm` elements (extending with holes when `frm` exceeds the
length, as the `arr.length = from` assignment does), then append the
elements after index `frm`. -/
def arrayRemove (l : List JVal) (frm : Nat) : List JVal :=
  (if frm ≤ l.length then l.take frm else padTo l frm) ++ l.drop (frm + 1)

/-- Wraps an integer to the signed 32-bit range, as the `hash & hash`
step (`ToInt32`) does. -/
def toInt32 (n : Int) : Int :=
  (n + 2 ^ 31) % 2 ^ 32 - 2 ^ 31

/-- Embeds `hashThisString` from `utils.js`: seed 0, then for each
character `hash = (hash << 5) - hash + code` wrapped to 32 bits.  The
`<< 5` operates on a 32-bit value, hence the inner wrap.  Character
codes are the model's code points (the engine's strings are hashed only
for identity of content, never for a particular value). -/
def hashThisString (s : String) : Int :=
  s.data.foldl (fun h c => toInt32 (toInt32 (h * 32) - h + c.toNat)) 0

/-- The `String(value)` coercion as used by `getOrderIndependentHash`'s
template literal on non-array, non-object values.  The textual form of
a date is modelled as a deterministic tag (JavaScript's is
locale-dependent; only content-determinism matters to any claim). -/
def jsToString : JVal → String
  | .undef => "undefined"
  | .null => "null"
  | .bool b => if b then "true" else "false"
  | .num n => toString n
  | .nan => "NaN"
  | .str s => s
  | .date t => "[Date " ++ toString t ++ "]"
  | .regexp s => s
  | .arr _ => ""
  | .obj _ => ""

mutual

/-- Embeds `getOrderIndependentHash` from `utils.js`: arrays sum the
element hashes and mix in a tag string of that sum; objects sum a tag
hash per own enumerable key; everything else hashes a tag built from
its classified type and textual form. -/
def getOrderIndependentHash : JVal → Int
  | .arr l =>
    let accum := hashAccumList 0 l
    accum + hashThisString ("[type: array, hash: " ++ toString accum ++ "]")
  | .obj fields => hashAccumFields 0 fields
  | v => hashThisString ("[ type: " ++ realTypeOf v ++ " ; value: " ++ jsToString v ++ " ]")

/-- The `forEach` accumulation `accum += getOrderIndependentHash(item)`. -/
def hashAccumList : Int → List JVal → Int
  | accum, [] => accum
  | accum, x :: xs => hashAccumList (accum + getOrderIndependentHash x) xs

/-- The `for key in object` accumulation over own enumerable keys. -/
def hashAccumFields : Int → List (String × JVal) → Int
  | accum, [] => accum
  | accum, (k, v) :: rest =>
    hashAccumFields
      (accum + hashThisString ("[ type: object, key: " ++ k ++ ", value hash: " ++
        toString (getOrderIndependentHash v) ++ " ]")) rest

end

/-- The per-key tag hash an object key contributes to the accumulator. -/
def objKeyHash (f : String × JVal) : Int :=
  hashThisString ("[ type: object, key: " ++ f.1 ++ ", value hash: " ++
    toString (getOrderIndependentHash f.2) ++ " ]")

/-- Modelled from the spec: the change-record data model of `diffs.js`
(the file itself is not among the sources; spec section 3 and the
external shape in section 6 define it).  A record carries an optional
`kind` tag, an optional `path` (the spec fixes an empty path, not an
absent one, for "root itself differs"), `lhs`/`rhs` values defaulting
to `undefined`, and the `index`/`item` pair of an `ArrayChange`.  The
type doubles as the shape of an arbitrary caller-supplied record, so
every field a record may lack is optional. -/
inductive RawChange where
  | mk (kind : Option String) (path : Option (List Key)) (lhs rhs : JVal)
      (index : Option Nat) (item : Option RawChange)

def RawChange.kind : RawChange → Option String
  | .mk k _ _ _ _ _ => k

def RawChange.path : RawChange → Option (List Key)
  | .mk _ p _ _ _ _ => p

def RawChange.lhs : RawChange → JVal
  | .mk _ _ l _ _ _ => l

def RawChange.rhs : RawChange → JVal
  | .mk _ _ _ r _ _ => r

def RawChange.index : RawChange → Option Nat
  | .mk _ _ _ _ i _ => i

def RawChange.item : RawChange → Option RawChange
  | .mk _ _ _ _ _ it => it

/-- Modelled from the spec: the `New(path, rhsValue)` record constructor
of the absent `diffs.js`. -/
def DiffNew (path : Option (List Key)) (rhs : JVal) : RawChange :=
  .mk (some "N") path .undef rhs none none

/-- Modelled from the spec: the `Deleted(path, lhsValue)` record
constructor of the absent `diffs.js`. -/
def DiffDeleted (path : Option (List Key)) (lhs : JVal) : RawChange :=
  .mk (some "D") path lhs .undef none none

/-- Modelled from the spec: the `Edited(path, lhsValue, rhsValue)`
record constructor of the absent `diffs.js`. -/
def DiffEdit (path : Option (List Key)) (lhs rhs : JVal) : RawChange :=
  .mk (some "E") path lhs rhs none none

/-- Modelled from the spec: the `ArrayChange(path, index, nestedChange)`
record constructor of the absent `diffs.js`. -/
def DiffArray (path : Option (List Key)) (index : Nat) (item : RawChange) : RawChange :=
  .mk (some "A") path .undef .undef (some index) (some item)

/-- Stable insertion of a value into a hash-sorted list (ascending). -/
def insertByHash (x : JVal) : List JVal → List JVal
  | [] => [x]
  | y :: ys =>
    if getOrderIndependentHash y ≤ getOrderIndependentHash x then y :: insertByHash x ys
    else x :: y :: ys

/-- Embeds the in-place `sort((a, b) => hash(a) - hash(b))` the engine
applies to both sequences under `orderIndependent`: a stable ascending
sort by order-independent hash (`Array.prototype.sort` is stable). -/
def sortByHash : List JVal → List JVal
  | [] => []
  | x :: xs => insertByHash x (sortByHash xs)

/-- Own enumerable string keys, as `Object.keys` returns them for the
values the engine's mapping branch can reach (plain objects; a date or
regexp owns none).  Symbol keys are outside the model. -/
def jsOwnKeys : JVal → List String
  | .obj fields => fields.map Prod.fst
  | _ => []

/-- The field list a mapping-branch value contributes (empty for dates
and regexps, which the walk treats as key-less objects). -/
def fieldsOf : JVal → List (String × JVal)
  | .obj fields => fields
  | _ => []

/-- Reassembles a mapping-branch value from its updated field list
(dates and regexps have no fields to update). -/
def rebuildObj : JVal → List (String × JVal) → JVal
  | .obj _, f => .obj f
  | v, _ => v

/-- The `pkeys.indexOf(k)` search: index of the first occurrence, or
`none` where JavaScript yields `-1`. -/
def jsIndexOf (l : List (Option String)) (x : Option String) : Option Nat :=
  match l with
  | [] => none
  | a :: rest => if a == x then some 0 else (jsIndexOf rest x).map (· + 1)

/-- The records the tail `while (i > j)` loop pushes: one
`ArrayChange(path, i, New(undefined, rhs[i]))` per index from `n - 1`
down to `m` (right sequence longer). -/
def tailNews (path : List Key) (ra : List JVal) (m n : Nat) : List RawChange :=
  (List.range (n - m)).map fun d =>
    DiffArray (some path) (n - 1 - d) (DiffNew none (ra.getD (n - 1 - d) .undef))

/-- The records the tail `while (j > i)` loop pushes: one
`ArrayChange(path, j, Deleted(undefined, lhs[j]))` per index from
`m - 1` down to `n` (left sequence longer). -/
def tailDels (path : List Key) (la : List JVal) (n m : Nat) : List RawChange :=
  (List.range (m - n)).map fun d =>
    DiffDeleted none (la.getD (m - 1 - d) .undef) |>
    fun item => DiffArray (some path) (m - 1 - d) item

/-- The `toString()` call of the regexp normalization (only applied
under a `realTypeOf === 'regexp'` guard, where the textual form is the
stored source). -/
def regexpToString : JVal → JVal
  | .regexp s => .str s
  | v => v

/-- The `Array.isArray` test. -/
def isJsArray : JVal → Bool
  | .arr _ => true
  | _ => false

/-- The element list of a sequence (only read under an `Array.isArray`
guard). -/
def elemsOf : JVal → List JVal
  | .arr l => l
  | _ => []

/-- The underlying instant of a date (only read under a
`realTypeOf === 'date'` guard, where `lhs - rhs` is the difference of
instants). -/
def dateVal : JVal → Int
  | .date t => t
  | _ => 0

mutual

/-- Embeds `deepDiff` from `deepDiff.js` at the absent-`prefilter`
default, with fuel bounding recursion depth (`none` = fuel exhausted)
and with state passing for the in-place mutations: the result carries
the record list this call pushes together with the post-call values of
`lhs` and `rhs` (the `orderIndependent` sort is the only mutation).
The shared traversal stack is passed by value: a call's net effect on
it is nil (push then pop), with the sorted sequences sitting in the
pushed frame exactly as the in-place sort leaves them aliased there. -/
def deepDiffM (fuel : Nat) (lhs rhs : JVal) (path : List Key) (key : Option Key)
    (stack : List (JVal × JVal)) (orderIndependent : Bool) :
    Option (List RawChange × JVal × JVal) :=
  match fuel with
  | 0 => none
  | fuel + 1 =>
    let currentPath := match key with
      | some k => path ++ [k]
      | none => path
    let (lhsC, rhsC) :=
      if realTypeOf lhs == "regexp" && realTypeOf rhs == "regexp" then
        (regexpToString lhs, regexpToString rhs)
      else (lhs, rhs)
    let ltype := jsTypeof lhsC
    let rtype := jsTypeof rhsC
    let keyD := key.getD (.str "undefined")
    let ldefined := ltype != "undefined" ||
      (match stack.getLast? with
        | some top => jsTruthy top.1 && hasOwnProp top.1 keyD
        | none => false)
    let rdefined := rtype != "undefined" ||
      (match stack.getLast? with
        | some top => jsTruthy top.2 && hasOwnProp top.2 keyD
        | none => false)
    if !ldefined && rdefined then
      some ([DiffNew (some currentPath) rhsC], lhs, rhs)
    else if !rdefined && ldefined then
      some ([DiffDeleted (some currentPath) lhsC], lhs, rhs)
    else if realTypeOf lhsC != realTypeOf rhsC then
      some ([DiffEdit (some currentPath) lhsC rhsC], lhs, rhs)
    else if realTypeOf lhsC == "date" && dateVal lhsC - dateVal rhsC != 0 then
      some ([DiffEdit (some currentPath) lhsC rhsC], lhs, rhs)
    else if ltype == "object" && !(lhsC == JVal.null) && !(rhsC == JVal.null) then
      if stack.any (fun p => jsStrictEq p.1 lhsC) then
        if !(jsStrictEq lhsC rhsC) then
          some ([DiffEdit (some currentPath) lhsC rhsC], lhs, rhs)
        else
          some ([], lhs, rhs)
      else if isJsArray lhsC then
        let la := if orderIndependent then sortByHash (elemsOf lhsC) else elemsOf lhsC
        let ra := if orderIndependent then sortByHash (elemsOf rhsC) else elemsOf rhsC
        let stack' := stack ++ [(JVal.arr la, JVal.arr ra)]
        let m := la.length
        let n := ra.length
        let headRecs := tailNews currentPath ra m n ++ tailDels currentPath la n m
        match Nat.min m n with
        | 0 => some (headRecs, .arr la, .arr ra)
        | c + 1 =>
          match arrLoopM fuel currentPath stack' orderIndependent c la ra with
          | none => none
          | some (cs, la', ra') => some (headRecs ++ cs, .arr la', .arr ra')
      else
        let stack' := stack ++ [(lhsC, rhsC)]
        let akeys := jsOwnKeys lhsC
        let pkeys := (jsOwnKeys rhsC).map fun k => some k
        match objPassM fuel currentPath stack' orderIndependent akeys pkeys
            (fieldsOf lhsC) (fieldsOf rhsC) with
        | none => none
        | some (cs1, pkeys', lf', rf') =>
          match objPass2M fuel currentPath stack' orderIndependent pkeys' rf' with
          | none => none
          | some (cs2, rf'') =>
            some (cs1 ++ cs2, rebuildObj lhsC lf', rebuildObj rhsC rf'')
    else if !(jsStrictEq lhsC rhsC) then
      if !(ltype == "number" && jsIsNaN lhsC && jsIsNaN rhsC) then
        some ([DiffEdit (some currentPath) lhsC rhsC], lhs, rhs)
      else
        some ([], lhs, rhs)
    else
      some ([], lhs, rhs)

/-- The `for (; i >= 0; --i)` loop over shared sequence indices,
descending from `i` to 0, threading the two (possibly updated) element
lists. -/
def arrLoopM (fuel : Nat) (path : List Key) (stack : List (JVal × JVal))
    (orderIndependent : Bool) (i : Nat) (la ra : List JVal) :
    Option (List RawChange × List JVal × List JVal) :=
  match fuel with
  | 0 => none
  | fuel + 1 =>
    match deepDiffM fuel (la.getD i .undef) (ra.getD i .undef) path (some (.idx i))
        stack orderIndependent with
    | none => none
    | some (cs, lv, rv) =>
      let la' := la.set i lv
      let ra' := ra.set i rv
      match i with
      | 0 => some (cs, la', ra')
      | i' + 1 =>
        match arrLoopM fuel path stack orderIndependent i' la' ra' with
        | none => none
        | some (cs', la'', ra'') => some (cs ++ cs', la'', ra'')

/-- The first mapping pass: walk the left value's own keys; recurse on
keys the right value also owns (consuming them in `pkeys` by nulling
their slot, as `pkeys[other] = null` does) and recurse against
`undefined` for keys it does not. -/
def objPassM (fuel : Nat) (path : List Key) (stack : List (JVal × JVal))
    (orderIndependent : Bool) (akeys : List String) (pkeys : List (Option String))
    (lf rf : List (String × JVal)) :
    Option (List RawChange × List (Option String) ×
      List (String × JVal) × List (String × JVal)) :=
  match fuel with
  | 0 => none
  | fuel + 1 =>
    match akeys with
    | [] => some ([], pkeys, lf, rf)
    | k :: rest =>
      match jsIndexOf pkeys (some k) with
      | some other =>
        match deepDiffM fuel (objLookup lf k) (objLookup rf k) path (some (.str k))
            stack orderIndependent with
        | none => none
        | some (cs, lv, rv) =>
          match objPassM fuel path stack orderIndependent rest (pkeys.set other none)
              (objSet lf k lv) (objSet rf k rv) with
          | none => none
          | some (cs', p', lf', rf') => some (cs ++ cs', p', lf', rf')
      | none =>
        match deepDiffM fuel (objLookup lf k) .undef path (some (.str k))
            stack orderIndependent with
        | none => none
        | some (cs, lv, _) =>
          match objPassM fuel path stack orderIndependent rest pkeys
              (objSet lf k lv) rf with
          | none => none
          | some (cs', p', lf', rf') => some (cs ++ cs', p', lf', rf')

/-- The second mapping pass: walk the unconsumed right-side keys and
recurse with the left side `undefined`.  The `if (k)` guard skips both
consumed (`null`) slots and the empty-string key, which is falsy. -/
def objPass2M (fuel : Nat) (path : List Key) (stack : List (JVal × JVal))
    (orderIndependent : Bool) (pkeys : List (Option String))
    (rf : List (String × JVal)) :
    Option (List RawChange × List (String × JVal)) :=
  match fuel with
  | 0 => none
  | fuel + 1 =>
    match pkeys with
    | [] => some ([], rf)
    | none :: rest => objPass2M fuel path stack orderIndependent rest rf
    | some k :: rest =>
      if k == "" then objPass2M fuel path stack orderIndependent rest rf
      else
        match deepDiffM fuel .undef (objLookup rf k) path (some (.str k))
            stack orderIndependent with
        | none => none
        | some (cs, _, rv) =>
          match objPass2M fuel path stack orderIndependent rest (objSet rf k rv) with
          | none => none
          | some (cs', rf') => some (cs ++ cs', rf')

end

/-- The options object of `diff`/`observableDiff`.  JavaScript object
keys are free-form, so the correctly spelled `accumulator` key a caller
may pass and the misspelled `accummulator` key the source destructures
are distinct fields.  An absent key is `none`; an absent
`orderIndependent` is falsy, hence `false`. -/
structure DiffOptions where
  accumulator : Option (List RawChange)
  accummulator : Option (List RawChange)
  orderIndependent : Bool

/-- Embeds `observableDiff`: one run of the recursive engine from the
root (`path`, `key` and `stack` start as the source's `null` defaults).
The observer argument only replays the produced records to a callback
in emission order and does not affect the returned sequence, so it is
not a parameter of the embedding; `diff`'s accumulator observer is
accounted for in `diffM`. -/
def observableDiffM (fuel : Nat) (lhs rhs : JVal) (opts : DiffOptions) :
    Option (List RawChange × JVal × JVal) :=
  deepDiffM fuel lhs rhs [] none [] opts.orderIndependent

/-- Embeds `diff`.  The source destructures the misspelled key
`accummulator` from the options; when that key is present every record
is pushed to it (records are objects, hence truthy) and the same
sequence is returned, otherwise the change list is returned, or the
`undefined` sentinel (`none`) when it is empty.  The post-call values
of the two inputs are threaded through. -/
def diffM (fuel : Nat) (lhs rhs : JVal) (opts : DiffOptions) :
    Option (Option (List RawChange) × JVal × JVal) :=
  match observableDiffM fuel lhs rhs opts with
  | none => none
  | some (changes, l', r') =>
    match opts.accummulator with
    | some acc => some (some (acc ++ changes), l', r')
    | none => some (if changes.isEmpty then none else some changes, l', r')

/-- The `validKinds` list of `applyChange`. -/
def validKinds : List String := ["N", "E", "A", "D"]

/-- Truthiness of a `kind` field read off a record (an absent kind is
`undefined`, an empty string is falsy). -/
def kindTruthy : Option String → Bool
  | some s => s != ""
  | none => false

/-- A value passed in the `source` position of `applyChange` or
`revertChange`.  In JavaScript a change record is an ordinary object;
the model represents any source value whose `kind` property is a valid
kind string as `.chg` (the shim can promote it) and every other value
as `.val` (its `kind` read yields nothing `validKinds.includes`
accepts). -/
inductive JSArg where
  | val (v : JVal)
  | chg (c : RawChange)

/-- JavaScript truthiness of a source argument (a record is an object,
hence truthy). -/
def JSArg.truthy : JSArg → Bool
  | .val v => jsTruthy v
  | .chg _ => true

/-- The `source.kind` property read the shim performs. -/
def JSArg.kindOf : JSArg → Option String
  | .val _ => none
  | .chg c => c.kind

/-- The two-argument shim at the top of `applyChange`: when `change` is
undefined and `source` is a truthy value with a valid `kind`, the
source takes the place of the change. -/
def resolveChange (source : Option JSArg) (change : Option RawChange) : Option RawChange :=
  match change with
  | some c => some c
  | none =>
    match source with
    | some s =>
      if s.truthy then
        match s.kindOf with
        | some k => if validKinds.contains k then
            (match s with
              | .chg c => some c
              | .val _ => none)
          else none
        | none => none
      else none
    | none => none

/-- The in-place `arr = arrayRemove(arr, index)` step of a sequence
deletion: only an actual array gets spliced; every other receiver makes
the `slice`/`length` machinery inside `arrayRemove` throw, as does an
`undefined` index (`arr.length = NaN` raises). -/
def arrayRemoveV (arr : JVal) (index : Option Nat) : Except Unit JVal :=
  match arr, index with
  | .arr l, some n => .ok (.arr (arrayRemove l n))
  | _, _ => .error ()

mutual

/-- Embeds `applyArrayChange(arr, index, change)`.  A change with a
non-empty `path` walks (read-only) below the indexed slot before the
terminal switch; otherwise the switch acts on the slot itself, splicing
via `arrayRemove` for a deletion.  The record's fields arrive
destructured (`kind`, `path`, `rhs`, `index`, `item`).  In-place
mutation is modelled by writing the updated child back into its parent
(skipped when the child is unchanged, which is exactly when JavaScript's
aliasing makes the write invisible). -/
def applyArrayChangeM : JVal → Option Nat → Option RawChange → Except Unit JVal
  | _, _, none => .error ()
  | arr, index, some (.mk kind path _ rhsv idx item) =>
    let idxKey : Key := match index with
      | some n => .idx n
      | none => .str "undefined"
    match path with
    | some (k0 :: ks) => do
      let it ← getProp arr idxKey
      let it' ← arrApplyPathM it (k0 :: ks) kind rhsv idx item
      if it' == it then pure arr else setProp arr idxKey it'
    | _ =>
      match kind with
      | some "A" => do
        let slot ← getProp arr idxKey
        let arr' ← applyArrayChangeM slot idx item
        if arr' == slot then pure arr else setProp arr idxKey arr'
      | some "D" => arrayRemoveV arr index
      | some "E" => setProp arr idxKey rhsv
      | some "N" => setProp arr idxKey rhsv
      | _ => pure arr
termination_by _ _ change => (sizeOf change, 0, 0)

/-- The read-only path walk of `applyArrayChange` (`it = it[path[i]]`
with no lazy creation) followed by its terminal switch at the last
path segment. -/
def arrApplyPathM : JVal → List Key → Option String → JVal → Option Nat →
    Option RawChange → Except Unit JVal
  | it, [], _, _, _, _ => pure it
  | it, [k], kind, rhsv, idx, item =>
    match kind with
    | some "A" => do
      let slot ← getProp it k
      let arr' ← applyArrayChangeM slot idx item
      if arr' == slot then pure it else setProp it k arr'
    | some "D" => delProp it k
    | some "E" => setProp it k rhsv
    | some "N" => setProp it k rhsv
    | _ => pure it
  | it, k :: k2 :: ks, kind, rhsv, idx, item => do
    let child ← getProp it k
    let child' ← arrApplyPathM child (k2 :: ks) kind rhsv idx item
    if child' == child then pure it else setProp it k child'
termination_by _ p _ _ _ item => (sizeOf item, 1, p.length)

end

/-- The terminal switch of `applyChange` at the final path segment
(reached only with a truthy `path`, so the `'A'` case lazily creates an
empty sequence in an `undefined` slot before recursing). -/
def applyFinalM : JVal → Option Key → Option String → JVal → Option Nat →
    Option RawChange → Except Unit JVal
  | it, k, kind, rhsv, idx, item =>
    let kk := k.getD (.str "undefined")
    match kind with
    | some "A" => do
      let v ← getProp it kk
      let it' ← if v == JVal.undef then setProp it kk (.arr []) else pure it
      let slot ← getProp it' kk
      let arr' ← applyArrayChangeM slot idx item
      if arr' == slot then pure it' else setProp it' kk arr'
    | some "D" => delProp it kk
    | some "E" => setProp it kk rhsv
    | some "N" => setProp it kk rhsv
    | _ => pure it

/-- The `while (++i < last)` walk of `applyChange`: descend every path
segment but the last, lazily creating an empty sequence or mapping in
an `undefined` slot according to whether the next segment is numeric;
an empty path falls through to the terminal switch with the
`undefined`-coerced key. -/
def applyPathM : JVal → List Key → Option String → JVal → Option Nat →
    Option RawChange → Except Unit JVal
  | it, [], kind, rhsv, idx, item => applyFinalM it none kind rhsv idx item
  | it, [k], kind, rhsv, idx, item => applyFinalM it (some k) kind rhsv idx item
  | it, k :: k2 :: ks, kind, rhsv, idx, item => do
    let v ← getProp it k
    let it' ← if v == JVal.undef then
        setProp it k (match k2 with
          | .idx _ => .arr []
          | .str _ => .obj [])
      else pure it
    let child ← getProp it' k
    let child' ← applyPathM child (k2 :: ks) kind rhsv idx item
    if child' == child then pure it' else setProp it' k child'

/-- Embeds `applyChange(target, source, change)`: the two-argument shim
resolves the effective change record; a falsy target, missing change or
falsy `kind` is a silent no-op; a change with a `path` is applied
through the creating walk; a pathless `'A'` change recurses on the
target itself while a pathless `'D'`/`'E'`/`'N'` throws reading
`change.path[i]` of `undefined`. -/
def applyChangeM (target : JVal) (source : Option JSArg) (change : Option RawChange) :
    Except Unit JVal :=
  match resolveChange source change with
  | none => .ok target
  | some c =>
    if jsTruthy target && kindTruthy c.kind then
      match c with
      | .mk kind path _ rhsv idx item =>
        match path with
        | some p => applyPathM target p kind rhsv idx item
        | none =>
          match kind with
          | some "A" => applyArrayChangeM target idx item
          | _ => .error ()
    else .ok target

mutual

/-- Embeds `revertArrayChange(arr, index, change)`: the mirror of
`applyArrayChangeM`, with a deletion undone by a plain index write of
the recorded `lhs` (no splice-insert) and an addition undone by an
`arrayRemove` splice. -/
def revertArrayChangeM : JVal → Option Nat → Option RawChange → Except Unit JVal
  | _, _, none => .error ()
  | arr, index, some (.mk kind path lhsv _ idx item) =>
    let idxKey : Key := match index with
      | some n => .idx n
      | none => .str "undefined"
    match path with
    | some (k0 :: ks) => do
      let it ← getProp arr idxKey
      let it' ← revArrPathM it (k0 :: ks) kind lhsv idx item
      if it' == it then pure arr else setProp arr idxKey it'
    | _ =>
      match kind with
      | some "A" => do
        let slot ← getProp arr idxKey
        let arr' ← revertArrayChangeM slot idx item
        if arr' == slot then pure arr else setProp arr idxKey arr'
      | some "D" => setProp arr idxKey lhsv
      | some "E" => setProp arr idxKey lhsv
      | some "N" => arrayRemoveV arr index
      | _ => pure arr
termination_by _ _ change => (sizeOf change, 0, 0)

/-- The read-only path walk of `revertArrayChange` followed by its
terminal switch (`'D'`/`'E'` restore the recorded `lhs`, `'N'` deletes
the slot). -/
def revArrPathM : JVal → List Key → Option String → JVal → Option Nat →
    Option RawChange → Except Unit JVal
  | it, [], _, _, _, _ => pure it
  | it, [k], kind, lhsv, idx, item =>
    match kind with
    | some "A" => do
      let slot ← getProp it k
      let arr' ← revertArrayChangeM slot idx item
      if arr' == slot then pure it else setProp it k arr'
    | some "D" => setProp it k lhsv
    | some "E" => setProp it k lhsv
    | some "N" => delProp it k
    | _ => pure it
  | it, k :: k2 :: ks, kind, lhsv, idx, item => do
    let child ← getProp it k
    let child' ← revArrPathM child (k2 :: ks) kind lhsv idx item
    if child' == child then pure it else setProp it k child'
termination_by _ p _ _ _ item => (sizeOf item, 1, p.length)

end

/-- The terminal switch of `revertChange` at the final path segment:
`'A'` recurses (without lazy creation) into the indexed slot, `'D'` and
`'E'` write the recorded `lhs` back, `'N'` deletes the slot. -/
def revertFinalM : JVal → Option Key → Option String → JVal → Option Nat →
    Option RawChange → Except Unit JVal
  | it, k, kind, lhsv, idx, item =>
    let kk := k.getD (.str "undefined")
    match kind with
    | some "A" => do
      let slot ← getProp it kk
      let arr' ← revertArrayChangeM slot idx item
      if arr' == slot then pure it else setProp it kk arr'
    | some "D" => setProp it kk lhsv
    | some "E" => setProp it kk lhsv
    | some "N" => delProp it kk
    | _ => pure it

/-- The prefix walk of `revertChange`: descend every path segment but
the last, lazily creating an empty mapping (never a sequence: the
asymmetry is the source's) in an `undefined` slot. -/
def revertPathM : JVal → List Key → Option String → JVal → Option Nat →
    Option RawChange → Except Unit JVal
  | it, [], kind, lhsv, idx, item => revertFinalM it none kind lhsv idx item
  | it, [k], kind, lhsv, idx, item => revertFinalM it (some k) kind lhsv idx item
  | it, k :: k2 :: ks, kind, lhsv, idx, item => do
    let v ← getProp it k
    let it' ← if v == JVal.undef then setProp it k (.obj []) else pure it
    let child ← getProp it' k
    let child' ← revertPathM child (k2 :: ks) kind lhsv idx item
    if child' == child then pure it' else setProp it' k child'

/-- Embeds `revertChange(target, source, change)`.  The guard requires
a truthy `target`, a truthy `source` and a change with a truthy `kind`
(there is no two-argument shim here); past the guard the walk reads
`change.path.length` unconditionally, so a pathless change throws. -/
def revertChangeM (target : JVal) (source : Option JSArg) (change : Option RawChange) :
    Except Unit JVal :=
  match change with
  | none => .ok target
  | some c =>
    if jsTruthy target && (match source with
        | some s => s.truthy
        | none => false) && kindTruthy c.kind then
      match c with
      | .mk kind path lhsv _ idx item =>
        match path with
        | some p => revertPathM target p kind lhsv idx item
        | none => .error ()
    else .ok target

mutual

/-- A deep copy of a tree value, as a round-trip harness takes before
replaying records (the tree model carries no sharing, so the clone is a
structural recursion). -/
def deepCopy : JVal → JVal
  | .arr l => .arr (deepCopyList l)
  | .obj fs => .obj (deepCopyFields fs)
  | v => v

/-- Deep copy of a sequence's elements. -/
def deepCopyList : List JVal → List JVal
  | [] => []
  | x :: xs => deepCopy x :: deepCopyList xs

/-- Deep copy of a mapping's fields. -/
def deepCopyFields : List (String × JVal) → List (String × JVal)
  | [] => []
  | (k, v) :: rest => (k, deepCopy v) :: deepCopyFields rest

end

/-- Replays records in emission order through two-argument
`applyChange(target, change)` calls, threading the mutated target. -/
def applyAll (target : JVal) (cs : List RawChange) : Except Unit JVal :=
  match cs with
  | [] => .ok target
  | c :: rest => do
    let t' ← applyChangeM target (some (.chg c)) none
    applyAll t' rest

/-- Replays records in order through two-argument
`revertChange(target, change)` calls. -/
def revertAll2 (target : JVal) (cs : List RawChange) : Except Unit JVal :=
  match cs with
  | [] => .ok target
  | c :: rest => do
    let t' ← revertChangeM target (some (.chg c)) none
    revertAll2 t' rest

/-- Replays records in order through three-argument
`revertChange(target, source, change)` calls with a fixed source. -/
def revertAll3 (target : JVal) (source : JSArg) (cs : List RawChange) :
    Except Unit JVal :=
  match cs with
  | [] => .ok target
  | c :: rest => do
    let t' ← revertChangeM target (some source) (some c)
    revertAll3 t' source rest

/-- A heap value: a primitive or a reference to an allocated object.
This second embedding gives JavaScript objects their identity and lets
self-referential (cyclic) values exist, which the tree model cannot
express; it is used for the cycle-guard termination claim. -/
inductive HVal where
  | undef
  | null
  | bool (b : Bool)
  | num (n : Int)
  | nan
  | str (s : String)
  | ref (a : Nat)
deriving DecidableEq

/-- A heap node: the allocated object a reference points at. -/
inductive HNode where
  | obj (fields : List (String × HVal))
  | arr (elems : List HVal)
  | date (t : Int)
  | regexp (source : String)
deriving DecidableEq

/-- A heap: finitely many allocations, addresses to nodes. -/
abbrev Heap := List (Nat × HNode)

/-- Address lookup (addresses are unique in a well-formed heap). -/
def heapFind (h : Heap) (a : Nat) : Option HNode :=
  (List.find? (fun p => p.1 == a) h).map Prod.snd

/-- The `typeof` operator on heap values (`null` and every reference
are `"object"`). -/
def jsTypeofH : HVal → String
  | .undef => "undefined"
  | .bool _ => "boolean"
  | .num _ => "number"
  | .nan => "number"
  | .str _ => "string"
  | _ => "object"

/-- `realTypeOf` over the heap: references classify by their node (a
dangling reference cannot arise in JavaScript and is classed
`"object"`). -/
def realTypeOfH (h : Heap) : HVal → String
  | .null => "null"
  | .ref a =>
    match heapFind h a with
    | some (.arr _) => "array"
    | some (.date _) => "date"
    | some (.regexp _) => "regexp"
    | _ => "object"
  | v => jsTypeofH v

/-- Truthiness of a heap value (references are objects, hence truthy). -/
def jsTruthyH : HVal → Bool
  | .undef => false
  | .null => false
  | .bool b => b
  | .num n => n != 0
  | .nan => false
  | .str s => s != ""
  | _ => true

/-- Strict equality `===` over the heap: reference identity for
objects (two references are identical exactly when their addresses
coincide), value equality for primitives, `NaN` unequal to itself. -/
def strictEqH (a b : HVal) : Bool :=
  match a, b with
  | .nan, _ => false
  | _, .nan => false
  | x, y => x == y

/-- The `isNaN` test over heap values (reached only under a `number`
typeof guard). -/
def isNaNH : HVal → Bool
  | .nan => true
  | _ => false

/-- The `toString()` of the regexp normalization over the heap. -/
def regexpToStringH (h : Heap) : HVal → HVal
  | .ref a =>
    match heapFind h a with
    | some (.regexp s) => .str s
    | _ => .ref a
  | v => v

/-- The `Array.isArray` test over the heap. -/
def isArrNodeH (h : Heap) (a : Nat) : Bool :=
  match heapFind h a with
  | some (.arr _) => true
  | _ => false

/-- The element list behind an array reference. -/
def heapElems (h : Heap) (a : Nat) : List HVal :=
  match heapFind h a with
  | some (.arr l) => l
  | _ => []

/-- `Object.keys` of the node behind a reference (dates and regexps
own no enumerable keys). -/
def heapKeys (h : Heap) (a : Nat) : List String :=
  match heapFind h a with
  | some (.obj fields) => fields.map Prod.fst
  | _ => []

/-- Property read `node[k]` behind a reference (first binding, as in
the tree model). -/
def heapPropH (h : Heap) (a : Nat) (k : String) : HVal :=
  match heapFind h a with
  | some (.obj fields) =>
    match fields.find? (fun f => f.1 == k) with
    | some f => f.2
    | none => .undef
  | _ => (.undef)

/-- The own-property-descriptor test over the heap. -/
def hasOwnPropH (h : Heap) (v : HVal) (k : Key) : Bool :=
  match v with
  | .ref a =>
    match heapFind h a with
    | some (.obj fields) => (fields.find? (fun f => f.1 == k.toKeyString)).isSome
    | some (.arr elems) =>
      match k with
      | .idx n => decide (n < elems.length)
      | .str s => s == "length" || (match s.toNat? with
          | some n => decide (n < elems.length) && toString n == s
          | none => false)
    | _ => false
  | .str s =>
    match k with
    | .idx n => decide (n < s.length)
    | .str t => t == "length"
  | _ => false

/-- The instant behind a date reference (read only under a date
classification). -/
def dateValH (h : Heap) : HVal → Int
  | .ref a =>
    match heapFind h a with
    | some (.date t) => t
    | _ => 0
  | _ => 0

/-- Modelled from the spec: the change-record constructors of the
absent `diffs.js`, over heap values (only the shapes the recursive
walk itself emits). -/
inductive HChange where
  | hnew (path : Option (List Key)) (rhs : HVal)
  | hdel (path : Option (List Key)) (lhs : HVal)
  | hedit (path : Option (List Key)) (lhs rhs : HVal)
  | harr (path : Option (List Key)) (index : Nat) (item : HChange)
deriving DecidableEq

/-- The tail `while (i > j)` records over the heap. -/
def tailNewsH (path : List Key) (ra : List HVal) (m n : Nat) : List HChange :=
  (List.range (n - m)).map fun d =>
    HChange.harr (some path) (n - 1 - d) (HChange.hnew none (ra.getD (n - 1 - d) .undef))

/-- The tail `while (j > i)` records over the heap. -/
def tailDelsH (path : List Key) (la : List HVal) (n m : Nat) : List HChange :=
  (List.range (m - n)).map fun d =>
    HChange.harr (some path) (m - 1 - d) (HChange.hdel none (la.getD (m - 1 - d) .undef))

mutual

/-- The heap-model embedding of `deepDiff`, again at the
absent-`prefilter` default and additionally specialized to the default
`orderIndependent` (the claim it serves concerns `diff(x, x)` with
default options; the in-place hash sort is therefore never entered).
Fuel bounds the descent depth; the traversal stack holds the address
pairs of the pushed `{lhs, rhs}` frames, and the cycle guard compares
addresses — genuine reference identity. -/
def deepDiffH (fuel : Nat) (h : Heap) (lhs rhs : HVal) (path : List Key)
    (key : Option Key) (stack : List (Nat × Nat)) : Option (List HChange) :=
  match fuel with
  | 0 => none
  | fuel + 1 =>
    let currentPath := match key with
      | some k => path ++ [k]
      | none => path
    let (lhsC, rhsC) :=
      if realTypeOfH h lhs == "regexp" && realTypeOfH h rhs == "regexp" then
        (regexpToStringH h lhs, regexpToStringH h rhs)
      else (lhs, rhs)
    let ltype := jsTypeofH lhsC
    let rtype := jsTypeofH rhsC
    let keyD := key.getD (.str "undefined")
    let ldefined := ltype != "undefined" ||
      (match stack.getLast? with
        | some top => jsTruthyH (.ref top.1) && hasOwnPropH h (.ref top.1) keyD
        | none => false)
    let rdefined := rtype != "undefined" ||
      (match stack.getLast? with
        | some top => jsTruthyH (.ref top.2) && hasOwnPropH h (.ref top.2) keyD
        | none => false)
    if !ldefined && rdefined then
      some [.hnew (some currentPath) rhsC]
    else if !rdefined && ldefined then
      some [.hdel (some currentPath) lhsC]
    else if realTypeOfH h lhsC != realTypeOfH h rhsC then
      some [.hedit (some currentPath) lhsC rhsC]
    else if realTypeOfH h lhsC == "date" && dateValH h lhsC - dateValH h rhsC != 0 then
      some [.hedit (some currentPath) lhsC rhsC]
    else if ltype == "object" && !(lhsC == HVal.null) && !(rhsC == HVal.null) then
      match lhsC, rhsC with
      | .ref la, .ref ra =>
        if stack.any (fun p => p.1 == la) then
          if !(strictEqH (.ref la) (.ref ra)) then
            some [.hedit (some currentPath) (.ref la) (.ref ra)]
          else
            some []
        else
          let stack' := stack ++ [(la, ra)]
          if isArrNodeH h la then
            let laE := heapElems h la
            let raE := heapElems h ra
            let m := laE.length
            let n := raE.length
            let headRecs := tailNewsH currentPath raE m n ++ tailDelsH currentPath laE n m
            match Nat.min m n with
            | 0 => some headRecs
            | c + 1 =>
              match arrLoopH fuel h currentPath stack' c laE raE with
              | none => none
              | some cs => some (headRecs ++ cs)
          else
            let akeys := heapKeys h la
            let pkeys := (heapKeys h ra).map fun k => some k
            match objPassH fuel h currentPath stack' akeys pkeys la ra with
            | none => none
            | some (cs1, pkeys') =>
              match objPass2H fuel h currentPath stack' pkeys' ra with
              | none => none
              | some cs2 => some (cs1 ++ cs2)
      | _, _ => some []
    else if !(strictEqH lhsC rhsC) then
      if !(ltype == "number" && isNaNH lhsC && isNaNH rhsC) then
        some [.hedit (some currentPath) lhsC rhsC]
      else
        some []
    else
      some []
termination_by (fuel, 0, 0)

/-- The shared-index loop over the heap, descending from `i` to 0 (the
loop body first recurses on the paired elements at `i`, then continues
with the next lower index). -/
def arrLoopH (fuel : Nat) (h : Heap) (path : List Key) (stack : List (Nat × Nat)) :
    Nat → List HVal → List HVal → Option (List HChange)
  | 0, laE, raE =>
    match deepDiffH fuel h (laE.getD 0 .undef) (raE.getD 0 .undef) path
        (some (.idx 0)) stack with
    | none => none
    | some cs => some cs
  | i' + 1, laE, raE =>
    match deepDiffH fuel h (laE.getD (i' + 1) .undef) (raE.getD (i' + 1) .undef) path
        (some (.idx (i' + 1))) stack with
    | none => none
    | some cs =>
      match arrLoopH fuel h path stack i' laE raE with
      | none => none
      | some cs' => some (cs ++ cs')
termination_by i _ _ => (fuel, 1, i + 1)

/-- The first mapping pass over the heap (left keys, with `pkeys`
consumption). -/
def objPassH (fuel : Nat) (h : Heap) (path : List Key) (stack : List (Nat × Nat))
    (akeys : List String) (pkeys : List (Option String)) (la ra : Nat) :
    Option (List HChange × List (Option String)) :=
  match akeys with
  | [] => some ([], pkeys)
  | k :: rest =>
    match jsIndexOf pkeys (some k) with
    | some other =>
      match deepDiffH fuel h (heapPropH h la k) (heapPropH h ra k) path
          (some (.str k)) stack with
      | none => none
      | some cs =>
        match objPassH fuel h path stack rest (pkeys.set other none) la ra with
        | none => none
        | some (cs', p') => some (cs ++ cs', p')
    | none =>
      match deepDiffH fuel h (heapPropH h la k) .undef path (some (.str k)) stack with
      | none => none
      | some cs =>
        match objPassH fuel h path stack rest pkeys la ra with
        | none => none
        | some (cs', p') => some (cs ++ cs', p')
termination_by (fuel, 1, akeys.length)

/-- The second mapping pass over the heap (unconsumed right keys; the
falsy empty-string key is skipped). -/
def objPass2H (fuel : Nat) (h : Heap) (path : List Key) (stack : List (Nat × Nat))
    (pkeys : List (Option String)) (ra : Nat) : Option (List HChange) :=
  match pkeys with
  | [] => some []
  | none :: rest => objPass2H fuel h path stack rest ra
  | some k :: rest =>
    if k == "" then objPass2H fuel h path stack rest ra
    else
      match deepDiffH fuel h .undef (heapPropH h ra k) path (some (.str k)) stack with
      | none => none
      | some cs =>
        match objPass2H fuel h path stack rest ra with
        | none => none
        | some cs' => some (cs ++ cs')
termination_by (fuel, 1, pkeys.length)

end

/-- The `diff(x, y)` entry over the heap at default options and the
depth bound sufficient for any well-formed heap (one frame per
allocated address plus the root and one leaf level): outer `none`
means the fuel ran out, inner `none` is the undefined no-changes
sentinel. -/
def diffTopH (h : Heap) (lhs rhs : HVal) : Option (Option (List HChange)) :=
  match deepDiffH (h.length + 2) h lhs rhs [] none [] with
  | none => none
  | some cs => some (if cs.isEmpty then none else some cs)

/-- Addresses a heap value references (at most one). -/
def HVal.refsOf : HVal → List Nat
  | .ref a => [a]
  | _ => []

/-- The values stored immediately inside a node. -/
def HNode.valsOf : HNode → List HVal
  | .obj fields => fields.map Prod.snd
  | .arr elems => elems
  | _ => []

/-- Addresses a node references. -/
def HNode.refsOf (nd : HNode) : List Nat :=
  nd.valsOf.flatMap HVal.refsOf

/-- A closed heap: every reference stored in a node is allocated. -/
def HeapWF (h : Heap) : Prop :=
  ∀ p ∈ h, ∀ a ∈ HNode.refsOf p.2, a ∈ h.map Prod.fst

/-- A value whose reference (if any) is allocated in `h`. -/
def ValWF (h : Heap) (x : HVal) : Prop :=
  ∀ a ∈ HVal.refsOf x, a ∈ h.map Prod.fst

/-- The number of allocated addresses not yet on the traversal stack:
the decreasing measure of the cycle-guarded walk. -/
def unstackedCount (h : Heap) (stack : List (Nat × Nat)) : Nat :=
  ((h.map Prod.fst).filter
    (fun a => !((stack.map Prod.fst).contains a))).length

mutual

theorem JVal.beq_iff : ∀ (a b : JVal), JVal.beq a b = true ↔ a = b
  | .undef, b => by cases b <;> simp [JVal.beq]
  | .null, b => by cases b <;> simp [JVal.beq]
  | .bool a, b => by cases b <;> simp [JVal.beq]
  | .num a, b => by cases b <;> simp [JVal.beq]
  | .nan, b => by cases b <;> simp [JVal.beq]
  | .str a, b => by cases b <;> simp [JVal.beq]
  | .date a, b => by cases b <;> simp [JVal.beq]
  | .regexp a, b => by cases b <;> simp [JVal.beq]
  | .arr a, b => by
    cases b <;> simp [JVal.beq]
    exact JVal.beqList_iff a _
  | .obj a, b => by
    cases b <;> simp [JVal.beq]
    exact JVal.beqFields_iff a _

theorem JVal.beqList_iff : ∀ (l m : List JVal), JVal.beqList l m = true ↔ l = m
  | [], m => by cases m <;> simp [JVal.beqList]
  | a :: as, m => by
    cases m with
    | nil => simp [JVal.beqList]
    | cons b bs =>
      simp only [JVal.beqList, Bool.and_eq_true, List.cons.injEq]
      rw [JVal.beq_iff a b, JVal.beqList_iff as bs]

theorem JVal.beqFields_iff :
    ∀ (l m : List (String × JVal)), JVal.beqFields l m = true ↔ l = m
  | [], m => by cases m <;> simp [JVal.beqFields]
  | (k, v) :: as, m => by
    cases m with
    | nil => simp [JVal.beqFields]
    | cons b bs =>
      obtain ⟨l, w⟩ := b
      simp only [JVal.beqFields, Bool.and_eq_true, List.cons.injEq, Prod.mk.injEq,
        beq_iff_eq]
      rw [JVal.beq_iff v w, JVal.beqFields_iff as bs, and_assoc]

end

theorem hashAccumList_eq (l : List JVal) :
    ∀ accum, hashAccumList accum l = accum + (l.map getOrderIndependentHash).sum := by
  induction l with
  | nil => intro accum; simp [hashAccumList]
  | cons x xs ih =>
    intro accum
    simp only [hashAccumList, List.map_cons, List.sum_cons, ih]
    omega

theorem hashAccumFields_eq (fs : List (String × JVal)) :
    ∀ accum, hashAccumFields accum fs = accum + (fs.map objKeyHash).sum := by
  induction fs with
  | nil => intro accum; simp [hashAccumFields]
  | cons f rest ih =>
    obtain ⟨k, v⟩ := f
    intro accum
    simp only [hashAccumFields, List.map_cons, List.sum_cons, ih, objKeyHash]
    omega

theorem getOrderIndependentHash_arr (l : List JVal) :
    getOrderIndependentHash (.arr l) =
      hashAccumList 0 l +
        hashThisString ("[type: array, hash: " ++ toString (hashAccumList 0 l) ++ "]") :=
  rfl

theorem getOrderIndependentHash_obj (fs : List (String × JVal)) :
    getOrderIndependentHash (.obj fs) = hashAccumFields 0 fs :=
  rfl

/-- C8: the order-independent hash is a pure function of value content
(it is a function of the tree, by construction of the embedding), and
it is invariant under permuting the elements of a sequence and under
permuting the key enumeration order of a mapping. -/
theorem c8_hash_permutation_invariant :
    (∀ (l l' : List JVal), l.Perm l' →
      getOrderIndependentHash (.arr l) = getOrderIndependentHash (.arr l')) ∧
    (∀ (fs fs' : List (String × JVal)), fs.Perm fs' →
      getOrderIndependentHash (.obj fs) = getOrderIndependentHash (.obj fs')) := by
  constructor
  · intro l l' hp
    simp only [getOrderIndependentHash_arr, hashAccumList_eq, Int.zero_add,
      (hp.map getOrderIndependentHash).sum_eq]
  · intro fs fs' hp
    simp only [getOrderIndependentHash_obj, hashAccumFields_eq, Int.zero_add,
      (hp.map objKeyHash).sum_eq]

/-- Witness for C8 at a concrete permutation of a two-element sequence
and a two-key mapping. -/
theorem c8_hash_permutation_invariant_witness :
    getOrderIndependentHash (.arr [.num 1, .num 2]) =
      getOrderIndependentHash (.arr [.num 2, .num 1]) ∧
    getOrderIndependentHash (.obj [("a", .num 1), ("b", .num 2)]) =
      getOrderIndependentHash (.obj [("b", .num 2), ("a", .num 1)]) :=
  ⟨c8_hash_permutation_invariant.1 _ _ (List.Perm.swap _ _ _),
   c8_hash_permutation_invariant.2 _ _ (List.Perm.swap _ _ _)⟩

/-- C6: diffing the sequence `[1,2,3]` against `[1,2,3,4,5]` emits
exactly two records, both `ArrayChange` wrapping a `New`, at index 4
first and index 3 second, and no record (in particular no `Edited`)
for the shared indices 0 through 2; the inputs come back unchanged. -/
theorem c6_sequence_tail_policy :
    observableDiffM 10 (.arr [.num 1, .num 2, .num 3])
      (.arr [.num 1, .num 2, .num 3, .num 4, .num 5]) ⟨none, none, false⟩ =
    some ([DiffArray (some []) 4 (DiffNew none (.num 5)),
           DiffArray (some []) 3 (DiffNew none (.num 4))],
      .arr [.num 1, .num 2, .num 3],
      .arr [.num 1, .num 2, .num 3, .num 4, .num 5]) := rfl

/-- C1 (code-bug evidence): at `lhs = {}`, `rhs = 5` the engine emits a
single root-level `Edited` record with an empty path; replaying it via
`applyChange` onto a deep copy of `lhs` writes a junk `"undefined"`
property (the empty path makes `change.path[i]` read `undefined`)
instead of producing `rhs`, and the engine's own zero-changes check
still reports a difference against `rhs`, contradicting the round-trip
property the documentation promises. -/
theorem c1_roundtrip_fails_at_root :
    observableDiffM 10 (.obj []) (.num 5) ⟨none, none, false⟩ =
      some ([DiffEdit (some []) (.obj []) (.num 5)], .obj [], .num 5) ∧
    applyAll (deepCopy (.obj [])) [DiffEdit (some []) (.obj []) (.num 5)] =
      .ok (.obj [("undefined", .num 5)]) ∧
    observableDiffM 10 (.obj [("undefined", .num 5)]) (.num 5) ⟨none, none, false⟩ =
      some ([DiffEdit (some []) (.obj [("undefined", .num 5)]) (.num 5)],
        .obj [("undefined", .num 5)], .num 5) ∧
    ([DiffEdit (some []) (.obj [("undefined", .num 5)]) (.num 5)] :
      List RawChange) ≠ [] :=
  ⟨rfl, rfl, rfl, List.cons_ne_nil _ _⟩

/-- C2 (code-bug evidence): at `lhs = {}`, `rhs = 5`, after applying
the emitted root `Edited` record to a deep copy of `lhs`, reverting
the same record leaves the value different from `lhs` under the
engine's own zero-changes check, whichever calling convention is used:
the spec's two-argument `revertChange` is a silent no-op (no shim
exists on the revert side), and the three-argument call writes the
recorded `lhs` under the junk `"undefined"` key. -/
theorem c2_revert_fails_at_root :
    observableDiffM 10 (.obj []) (.num 5) ⟨none, none, false⟩ =
      some ([DiffEdit (some []) (.obj []) (.num 5)], .obj [], .num 5) ∧
    applyAll (deepCopy (.obj [])) [DiffEdit (some []) (.obj []) (.num 5)] =
      .ok (.obj [("undefined", .num 5)]) ∧
    revertAll2 (.obj [("undefined", .num 5)])
      [DiffEdit (some []) (.obj []) (.num 5)] =
      .ok (.obj [("undefined", .num 5)]) ∧
    revertAll3 (.obj [("undefined", .num 5)]) (.val (.num 5))
      [DiffEdit (some []) (.obj []) (.num 5)] =
      .ok (.obj [("undefined", .obj [])]) ∧
    observableDiffM 10 (.obj [("undefined", .num 5)]) (.obj []) ⟨none, none, false⟩ =
      some ([DiffDeleted (some [.str "undefined"]) (.num 5)],
        .obj [("undefined", .num 5)], .obj []) ∧
    observableDiffM 10 (.obj [("undefined", .obj [])]) (.obj []) ⟨none, none, false⟩ =
      some ([DiffDeleted (some [.str "undefined"]) (.obj [])],
        .obj [("undefined", .obj [])], .obj []) ∧
    ([DiffDeleted (some [.str "undefined"]) (.num 5)] : List RawChange) ≠ [] :=
  ⟨rfl, rfl, rfl, rfl, rfl, rfl, List.cons_ne_nil _ _⟩

/-- C3 (code-bug evidence): `diff` destructures the misspelled options
key `accummulator`, while its own argument documentation names the key
`accumulator`.  A caller-supplied `accumulator` is therefore ignored:
with no changes the undefined sentinel comes back instead of the
accumulator, and with changes the plain change list comes back with
nothing appended to the accumulator; the misspelled key meanwhile
receives exactly the promised treatment. -/
theorem c3_accumulator_key_ignored :
    diffM 10 (.num 1) (.num 1) ⟨some [], none, false⟩ =
      some (none, .num 1, .num 1) ∧
    diffM 10 (.num 1) (.num 2) ⟨some [DiffNew none (.num 0)], none, false⟩ =
      some (some [DiffEdit (some []) (.num 1) (.num 2)], .num 1, .num 2) ∧
    (some [DiffEdit (some []) (.num 1) (.num 2)] : Option (List RawChange)) ≠
      some [DiffNew none (.num 0), DiffEdit (some []) (.num 1) (.num 2)] ∧
    diffM 10 (.num 1) (.num 1) ⟨none, some [], false⟩ =
      some (some [], .num 1, .num 1) := by
  refine ⟨rfl, rfl, ?_, rfl⟩
  simp [DiffEdit, DiffNew]

/-- C4 (counterexample): calling `revertChange` with exactly two
arguments on a target `{a: 1}` and an `Edited` record whose recorded
`lhs` is `0` leaves the target untouched — nothing restores the
recorded `lhs` — because the guard requires a truthy third argument
and no two-argument shim exists on the revert side. -/
theorem c4_two_arg_revert_counterexample :
    revertChangeM (.obj [("a", .num 1)])
      (some (.chg (DiffEdit (some [.str "a"]) (.num 0) (.num 1)))) none =
      .ok (.obj [("a", .num 1)]) ∧
    JVal.obj [("a", .num 1)] ≠ .obj [("a", .num 0)] := by
  refine ⟨rfl, ?_⟩
  simp

/-- C4 (amended): a two-argument `revertChange(target, change)` call is
a silent no-op for every target and record; undoing a change requires
the three-argument form with a truthy source, under which an `Edited`
record with a one-segment path restores the recorded `lhs` at that key
of an object target. -/
theorem c4_revert_contract_amended :
    (∀ (t : JVal) (c : RawChange),
      revertChangeM t (some (.chg c)) none = .ok t) ∧
    (∀ (fs : List (String × JVal)) (k : String) (l r : JVal) (s : JSArg),
      s.truthy = true →
      revertChangeM (.obj fs) (some s)
        (some (DiffEdit (some [.str k]) l r)) =
        .ok (.obj (objSet fs k l))) := by
  constructor
  · intro t c
    rfl
  · intro fs k l r s hs
    simp [revertChangeM, DiffEdit, hs, jsTruthy, kindTruthy, RawChange.kind,
      revertPathM, revertFinalM, setProp, Key.toKeyString]

/-- Witness for C4's amended theorem at a concrete target, record and
truthy source. -/
theorem c4_revert_contract_amended_witness :
    revertChangeM (.obj [("a", .num 1)]) (some (.chg (DiffEdit (some [.str "a"]) (.num 0) (.num 1)))) none =
      .ok (.obj [("a", .num 1)]) ∧
    JSArg.truthy (.val (.num 1)) = true ∧
    revertChangeM (.obj [("a", .num 1)]) (some (.val (.num 1)))
      (some (DiffEdit (some [.str "a"]) (.num 0) (.num 1))) =
      .ok (.obj [("a", .num 0)]) :=
  ⟨c4_revert_contract_amended.1 _ _, rfl,
   by
    have h := c4_revert_contract_amended.2 [("a", .num 1)] "a" (.num 0) (.num 1)
      (.val (.num 1)) rfl
    simpa [objSet] using h⟩

/-- C7: a two-argument `applyChange(target, change)` call on a record
with a valid kind performs exactly the mutation of the three-argument
call `applyChange(target, source, change)`, whatever the source: the
shim promotes the record and the remainder of the function never reads
the source. -/
theorem c7_two_arg_apply_matches_three_arg
    (t : JVal) (c : RawChange) (s : Option JSArg) (k : String)
    (hk : c.kind = some k) (hv : k ∈ validKinds) :
    applyChangeM t (some (.chg c)) none = applyChangeM t s (some c) := by
  have hc : validKinds.contains k = true := by
    fin_cases hv <;> rfl
  simp only [applyChangeM, resolveChange, JSArg.truthy, JSArg.kindOf, hk, hc,
    if_true]

/-- Witness for C7 at a concrete edit record and a concrete source. -/
theorem c7_two_arg_apply_matches_three_arg_witness :
    applyChangeM (.obj [("a", .num 1)])
      (some (.chg (DiffEdit (some [.str "a"]) (.num 1) (.num 2)))) none =
    applyChangeM (.obj [("a", .num 1)]) (some (.val (.num 7)))
      (some (DiffEdit (some [.str "a"]) (.num 1) (.num 2))) :=
  c7_two_arg_apply_matches_three_arg _ _ _ "E" rfl (by simp [validKinds])

/-- C9: every `applyChange`/`revertChange` call whose target is
undefined, whose change record is missing (for `applyChange`: with the
source also not promotable into a record), or whose record lacks a
`kind`, returns without raising and leaves the target untouched. -/
theorem c9_missing_inputs_noop :
    (∀ s c, applyChangeM .undef s c = .ok .undef) ∧
    (∀ t, applyChangeM t none none = .ok t) ∧
    (∀ t v, applyChangeM t (some (.val v)) none = .ok t) ∧
    (∀ t s p l r i it, applyChangeM t s (some (.mk none p l r i it)) = .ok t) ∧
    (∀ s c, revertChangeM .undef s c = .ok .undef) ∧
    (∀ t s, revertChangeM t s none = .ok t) ∧
    (∀ t s p l r i it, revertChangeM t s (some (.mk none p l r i it)) = .ok t) := by
  refine ⟨?_, ?_, ?_, ?_, ?_, ?_, ?_⟩
  · intro s c
    cases hc : resolveChange s c with
    | none => simp [applyChangeM, hc]
    | some c' => simp [applyChangeM, hc, jsTruthy]
  · intro t
    rfl
  · intro t v
    simp [applyChangeM, resolveChange, JSArg.truthy, JSArg.kindOf]
  · intro t s p l r i it
    simp [applyChangeM, resolveChange, kindTruthy, RawChange.kind]
  · intro s c
    cases c with
    | none => rfl
    | some c => simp [revertChangeM, jsTruthy]
  · intro t s
    rfl
  · intro t s p l r i it
    simp [revertChangeM, kindTruthy, RawChange.kind]

theorem list_set_getD {α : Type} (l : List α) (i : Nat) (d : α) :
    l.set i (l.getD i d) = l := by
  induction l generalizing i with
  | nil => simp
  | cons a t ih =>
    cases i with
    | zero => simp
    | succ j => simpa [List.getD] using ih j

theorem mem_of_mem_set {α : Type} {l : List α} {i : Nat} {a x : α}
    (h : x ∈ l.set i a) : x ∈ l ∨ x = a := by
  induction l generalizing i with
  | nil => simp at h
  | cons b t ih =>
    cases i with
    | zero =>
      rcases List.mem_cons.mp h with h1 | h1
      · exact .inr h1
      · exact .inl (List.mem_cons_of_mem _ h1)
    | succ j =>
      rcases List.mem_cons.mp h with h1 | h1
      · exact .inl (h1 ▸ List.mem_cons_self _ _)
      · rcases ih h1 with h2 | h2
        · exact .inl (List.mem_cons_of_mem _ h2)
        · exact .inr h2

theorem jsIndexOf_mem {l : List (Option String)} {x : Option String} {i : Nat}
    (h : jsIndexOf l x = some i) : x ∈ l := by
  induction l generalizing i with
  | nil => simp [jsIndexOf] at h
  | cons a rest ih =>
    by_cases ha : a == x
    · exact List.mem_cons.mpr (.inl (eq_of_beq ha).symm)
    · simp only [jsIndexOf, ha, if_neg, Bool.false_eq_true, ite_false,
        Option.map_eq_some'] at h
      obtain ⟨j, hj, _⟩ := h
      exact List.mem_cons_of_mem _ (ih hj)

theorem objSet_lookup_self {lf : List (String × JVal)} {k : String}
    (h : k ∈ lf.map Prod.fst) : objSet lf k (objLookup lf k) = lf := by
  induction lf with
  | nil => simp at h
  | cons f t ih =>
    obtain ⟨k0, v0⟩ := f
    by_cases hk : k0 == k
    · have : k0 = k := eq_of_beq hk
      subst this
      simp [objSet, objLookup]
    · have hne : ¬((k0, v0).1 == k) = true := hk
      simp only [objLookup, List.find?_cons, hne, Bool.false_eq_true, ite_false,
        objSet, if_neg]
      have hk' : k ∈ t.map Prod.fst := by
        simp only [List.map_cons, List.mem_cons] at h
        rcases h with h | h
        · exact absurd (beq_iff_eq.mpr h.symm) hk
        · exact h
      simp only [objLookup] at ih
      rw [ih hk']

theorem rebuildObj_fieldsOf (v : JVal) : rebuildObj v (fieldsOf v) = v := by
  cases v <;> rfl

theorem jsOwnKeys_eq_fieldsOf_map (v : JVal) :
    jsOwnKeys v = (fieldsOf v).map Prod.fst := by
  cases v <;> rfl

theorem isJsArray_elemsOf {v : JVal} (h : isJsArray v = true) :
    v = .arr (elemsOf v) := by
  cases v <;> simp_all [isJsArray, elemsOf]

theorem realTypeOf_regexp {v : JVal} (h : realTypeOf v = "regexp") :
    ∃ s, v = .regexp s := by
  cases v <;> simp_all [realTypeOf, jsTypeof]

theorem isJsArray_iff_realTypeOf {v : JVal} :
    isJsArray v = true ↔ realTypeOf v = "array" := by
  cases v <;> simp [isJsArray, realTypeOf, jsTypeof]

theorem engine_no_mutation :
    ∀ fuel : Nat,
      (∀ lhs rhs path key stack cs l' r',
        deepDiffM fuel lhs rhs path key stack false = some (cs, l', r') →
        l' = lhs ∧ r' = rhs) ∧
      (∀ path stack i la ra cs la' ra',
        arrLoopM fuel path stack false i la ra = some (cs, la', ra') →
        la' = la ∧ ra' = ra) ∧
      (∀ path stack akeys pkeys lf rf cs p' lf' rf',
        (∀ k ∈ akeys, k ∈ lf.map Prod.fst) →
        (∀ k, some k ∈ pkeys → k ∈ rf.map Prod.fst) →
        objPassM fuel path stack false akeys pkeys lf rf = some (cs, p', lf', rf') →
        lf' = lf ∧ rf' = rf ∧ (∀ k, some k ∈ p' → some k ∈ pkeys)) ∧
      (∀ path stack pkeys rf cs rf',
        (∀ k, some k ∈ pkeys → k ∈ rf.map Prod.fst) →
        objPass2M fuel path stack false pkeys rf = some (cs, rf') → rf' = rf) := by
  intro fuel
  induction fuel with
  | zero =>
    refine ⟨?_, ?_, ?_, ?_⟩
    · intro lhs rhs path key stack cs l' r' h
      simp [deepDiffM] at h
    · intro path stack i la ra cs la' ra' h
      simp [arrLoopM] at h
    · intro path stack akeys pkeys lf rf cs p' lf' rf' _ _ h
      simp [objPassM] at h
    · intro path stack pkeys rf cs rf' _ h
      simp [objPass2M] at h
  | succ fuel ih =>
    obtain ⟨ihA, ihB, ihC, ihD⟩ := ih
    refine ⟨?_, ?_, ?_, ?_⟩
    · -- deepDiffM
      intro lhs rhs path key stack cs l' r' h
      by_cases hreg : (realTypeOf lhs == "regexp" && realTypeOf rhs == "regexp") = true
      · -- both regexp: replaced by strings, every reachable branch is a leaf
        rw [Bool.and_eq_true, beq_iff_eq, beq_iff_eq] at hreg
        obtain ⟨s, rfl⟩ := realTypeOf_regexp hreg.1
        obtain ⟨t, rfl⟩ := realTypeOf_regexp hreg.2
        simp [deepDiffM, realTypeOf, regexpToString, jsTypeof] at h
        split at h <;>
          (simp only [Option.some.injEq, Prod.mk.injEq] at h
           exact ⟨h.2.1.symm, h.2.2.symm⟩)
      · -- not a regexp pair: the normalization leaves both sides alone
        simp only [deepDiffM, hreg, Bool.false_eq_true, ite_false] at h
        split at h
        · simp only [Option.some.injEq, Prod.mk.injEq] at h
          exact ⟨h.2.1.symm, h.2.2.symm⟩
        · split at h
          · simp only [Option.some.injEq, Prod.mk.injEq] at h
            exact ⟨h.2.1.symm, h.2.2.symm⟩
          · split at h
            · simp only [Option.some.injEq, Prod.mk.injEq] at h
              exact ⟨h.2.1.symm, h.2.2.symm⟩
            · rename_i hTyEq
              have hTy : realTypeOf lhs = realTypeOf rhs := by
                simp only [Bool.not_eq_true, bne_eq_false_iff_eq] at hTyEq
                exact hTyEq
              split at h
              · simp only [Option.some.injEq, Prod.mk.injEq] at h
                exact ⟨h.2.1.symm, h.2.2.symm⟩
              · split at h
                · -- object-family branch
                  split at h
                  · -- cycle guard fired
                    split at h <;>
                      (simp only [Option.some.injEq, Prod.mk.injEq] at h
                       exact ⟨h.2.1.symm, h.2.2.symm⟩)
                  · split at h
                    · -- sequence branch
                      rename_i hArr
                      have hlarr : lhs = .arr (elemsOf lhs) := isJsArray_elemsOf hArr
                      have hrarr : rhs = .arr (elemsOf rhs) := by
                        refine isJsArray_elemsOf ?_
                        rw [isJsArray_iff_realTypeOf, ← hTy,
                          ← isJsArray_iff_realTypeOf]
                        exact hArr
                      split at h
                      · simp only [Option.some.injEq, Prod.mk.injEq] at h
                        exact ⟨h.2.1.symm ▸ hlarr.symm ▸ rfl,
                          h.2.2.symm ▸ hrarr.symm ▸ rfl⟩
                      · split at h
                        · simp at h
                        · rename_i heqL
                          obtain ⟨hla, hra⟩ := ihB _ _ _ _ _ _ _ _ heqL
                          simp only [Option.some.injEq, Prod.mk.injEq] at h
                          subst hla hra
                          exact ⟨h.2.1.symm ▸ hlarr.symm ▸ rfl,
                            h.2.2.symm ▸ hrarr.symm ▸ rfl⟩
                    · -- mapping branch
                      split at h
                      · simp at h
                      · rename_i heq1
                        split at h
                        · simp at h
                        · rename_i heq2
                          have hC := ihC _ _ _ _ _ _ _ _ _ _
                            (by
                              rw [jsOwnKeys_eq_fieldsOf_map]
                              exact fun k hk => hk)
                            (by
                              intro k hk
                              rw [← jsOwnKeys_eq_fieldsOf_map]
                              rcases List.mem_map.mp hk with ⟨k0, hk0, hkk⟩
                              cases hkk
                              exact hk0)
                            heq1
                          obtain ⟨hlf, hrf, hsub⟩ := hC
                          subst hlf hrf
                          have hD := ihD _ _ _ _ _ _
                            (by
                              intro k hk
                              rw [← jsOwnKeys_eq_fieldsOf_map]
                              have := hsub k hk
                              rcases List.mem_map.mp this with ⟨k0, hk0, hkk⟩
                              cases hkk
                              exact hk0)
                            heq2
                          subst hD
                          simp only [Option.some.injEq, Prod.mk.injEq] at h
                          refine ⟨h.2.1.symm ▸ ?_, h.2.2.symm ▸ ?_⟩ <;>
                            rw [rebuildObj_fieldsOf]
                · split at h
                  · split at h <;>
                      (simp only [Option.some.injEq, Prod.mk.injEq] at h
                       exact ⟨h.2.1.symm, h.2.2.symm⟩)
                  · simp only [Option.some.injEq, Prod.mk.injEq] at h
                    exact ⟨h.2.1.symm, h.2.2.symm⟩
    · -- arrLoopM
      intro path stack i la ra cs la' ra' h
      simp only [arrLoopM] at h
      split at h
      · simp at h
      · rename_i heq0
        obtain ⟨hl, hr⟩ := ihA _ _ _ _ _ _ _ _ heq0
        subst hl hr
        split at h
        · simp only [Option.some.injEq, Prod.mk.injEq] at h
          refine ⟨h.2.1.symm ▸ ?_, h.2.2.symm ▸ ?_⟩ <;> rw [list_set_getD]
        · split at h
          · simp at h
          · rename_i heq1
            obtain ⟨hla, hra⟩ := ihB _ _ _ _ _ _ _ _ heq1
            simp only [Option.some.injEq, Prod.mk.injEq] at h
            rw [list_set_getD] at hla hra
            exact ⟨h.2.1.symm ▸ hla, h.2.2.symm ▸ hra⟩
    · -- objPassM
      intro path stack akeys pkeys lf rf cs p' lf' rf' hak hpk h
      simp only [objPassM] at h
      split at h
      · simp only [Option.some.injEq, Prod.mk.injEq] at h
        exact ⟨h.2.2.1.symm, h.2.2.2.symm, fun k hk => h.2.1 ▸ hk⟩
      · rename_i k rest
        have hkmem : k ∈ lf.map Prod.fst := hak k (List.mem_cons_self _ _)
        split at h
        · -- shared key
          rename_i other hIdx
          have hkr : k ∈ rf.map Prod.fst := hpk k (jsIndexOf_mem hIdx)
          split at h
          · simp at h
          · rename_i heq0
            obtain ⟨hl, hr⟩ := ihA _ _ _ _ _ _ _ _ heq0
            subst hl hr
            rw [objSet_lookup_self hkmem, objSet_lookup_self hkr] at h
            split at h
            · simp at h
            · rename_i heq1
              have hC := ihC _ _ _ _ _ _ _ _ _ _
                (fun k' hk' => hak k' (List.mem_cons_of_mem _ hk'))
                (by
                  intro k' hk'
                  rcases mem_of_mem_set hk' with hmem | hbad
                  · exact hpk k' hmem
                  · cases hbad)
                heq1
              obtain ⟨hlf, hrf, hsub⟩ := hC
              simp only [Option.some.injEq, Prod.mk.injEq] at h
              refine ⟨h.2.2.1.symm ▸ hlf, h.2.2.2.symm ▸ hrf, ?_⟩
              intro k' hk'
              have := hsub k' (h.2.1 ▸ hk')
              rcases mem_of_mem_set this with hmem | hbad
              · exact hmem
              · cases hbad
        · -- key only on the left
          split at h
          · simp at h
          · rename_i heq0
            obtain ⟨hl, _⟩ := ihA _ _ _ _ _ _ _ _ heq0
            subst hl
            rw [objSet_lookup_self hkmem] at h
            split at h
            · simp at h
            · rename_i heq1
              have hC := ihC _ _ _ _ _ _ _ _ _ _
                (fun k' hk' => hak k' (List.mem_cons_of_mem _ hk'))
                hpk heq1
              obtain ⟨hlf, hrf, hsub⟩ := hC
              simp only [Option.some.injEq, Prod.mk.injEq] at h
              exact ⟨h.2.2.1.symm ▸ hlf, h.2.2.2.symm ▸ hrf,
                fun k' hk' => hsub k' (h.2.1 ▸ hk')⟩
    · -- objPass2M
      intro path stack pkeys rf cs rf' hpk h
      simp only [objPass2M] at h
      split at h
      · simp only [Option.some.injEq, Prod.mk.injEq] at h
        exact h.2.symm
      · rename_i rest
        exact ihD _ _ _ _ _ _ (fun k hk => hpk k (List.mem_cons_of_mem _ hk)) h
      · rename_i k rest
        split at h
        · exact ihD _ _ _ _ _ _ (fun k' hk' => hpk k' (List.mem_cons_of_mem _ hk')) h
        · split at h
          · simp at h
          · rename_i heq0
            obtain ⟨_, hr⟩ := ihA _ _ _ _ _ _ _ _ heq0
            subst hr
            have hkr : k ∈ rf.map Prod.fst := hpk k (List.mem_cons_self _ _)
            rw [objSet_lookup_self hkr] at h
            split at h
            · simp at h
            · rename_i heq1
              have hD := ihD _ _ _ _ _ _
                (fun k' hk' => hpk k' (List.mem_cons_of_mem _ hk')) heq1
              simp only [Option.some.injEq, Prod.mk.injEq] at h
              exact h.2.symm ▸ hD

/-- C10: with `orderIndependent` unset or false, neither `diff` nor
`observableDiff` mutates its inputs: every completed run returns the
post-call values of both inputs structurally unchanged (the in-place
hash sort of sequences is the engine's only input mutation, and it is
guarded by the flag). -/
theorem c10_inputs_unchanged_without_order_independence
    (fuel : Nat) (lhs rhs : JVal) (opts : DiffOptions)
    (hoi : opts.orderIndependent = false) :
    (∀ cs l' r', observableDiffM fuel lhs rhs opts = some (cs, l', r') →
      l' = lhs ∧ r' = rhs) ∧
    (∀ res l' r', diffM fuel lhs rhs opts = some (res, l', r') →
      l' = lhs ∧ r' = rhs) := by
  have hA := (engine_no_mutation fuel).1
  have hobsOk : ∀ cs l' r', observableDiffM fuel lhs rhs opts = some (cs, l', r') →
      l' = lhs ∧ r' = rhs := by
    intro cs l' r' h
    rw [observableDiffM, hoi] at h
    exact hA _ _ _ _ _ _ _ _ h
  refine ⟨hobsOk, ?_⟩
  intro res l' r' h
  rw [diffM] at h
  cases hobs : observableDiffM fuel lhs rhs opts with
  | none => rw [hobs] at h; simp at h
  | some trip =>
    obtain ⟨cs, l0, r0⟩ := trip
    obtain ⟨hl0, hr0⟩ := hobsOk _ _ _ hobs
    rw [hobs] at h
    split at h
    · rename_i heq
      exact Option.noConfusion heq
    · rename_i cs2 lv rv heq
      simp only [Option.some.injEq, Prod.mk.injEq] at heq
      obtain ⟨hcs2, hlv, hrv⟩ := heq
      subst hlv hrv
      split at h <;>
        (simp only [Option.some.injEq, Prod.mk.injEq] at h
         exact ⟨h.2.1 ▸ hl0, h.2.2 ▸ hr0⟩)

/-- Witness for C10 at a concrete run: diffing `[2,1]` against `[1]`
without order independence emits a deletion and an edit and hands both
inputs back unchanged. -/
theorem c10_inputs_unchanged_witness :
    observableDiffM 10 (.arr [.num 2, .num 1]) (.arr [.num 1]) ⟨none, none, false⟩ =
      some ([DiffArray (some []) 1 (DiffDeleted none (.num 1)),
             DiffEdit (some [.idx 0]) (.num 2) (.num 1)],
        .arr [.num 2, .num 1], .arr [.num 1]) ∧
    (JVal.arr [.num 2, .num 1] = .arr [.num 2, .num 1] ∧
     JVal.arr [.num 1] = .arr [.num 1]) :=
  ⟨rfl,
   (c10_inputs_unchanged_without_order_independence 10 (.arr [.num 2, .num 1])
      (.arr [.num 1]) ⟨none, none, false⟩ rfl).1
     [DiffArray (some []) 1 (DiffDeleted none (.num 1)),
      DiffEdit (some [.idx 0]) (.num 2) (.num 1)]
     (.arr [.num 2, .num 1]) (.arr [.num 1]) rfl⟩

theorem heapFind_found {h : Heap} {a : Nat} (ha : a ∈ h.map Prod.fst) :
    ∃ nd, heapFind h a = some nd ∧ (a, nd) ∈ h := by
  rcases List.mem_map.mp ha with ⟨p, hp, hpa⟩
  cases hfind : List.find? (fun q => q.1 == a) h with
  | none =>
    have := List.find?_eq_none.mp hfind p hp
    simp [hpa] at this
  | some q =>
    refine ⟨q.2, by simp [heapFind, hfind], ?_⟩
    have hq : q ∈ h := List.mem_of_find?_eq_some hfind
    have hqa : q.1 = a := by
      have := List.find?_some hfind
      simpa using this
    simpa [← hqa] using hq

theorem heapFind_mem {h : Heap} {a : Nat} {nd : HNode}
    (hf : heapFind h a = some nd) : (a, nd) ∈ h := by
  simp only [heapFind, Option.map_eq_some'] at hf
  obtain ⟨q, hq, hq2⟩ := hf
  have hqa : q.1 = a := by
    have := List.find?_some hq
    simpa using this
  have hmem := List.mem_of_find?_eq_some hq
  have : q = (a, nd) := by
    cases q
    simp_all
  simpa [this] using hmem

theorem valWF_of_nodeVal {h : Heap} {a : Nat} {nd : HNode} {v : HVal}
    (hwf : HeapWF h) (hmem : (a, nd) ∈ h) (hv : v ∈ nd.valsOf) :
    ValWF h v := by
  intro b hb
  refine hwf (a, nd) hmem b ?_
  simp only [HNode.refsOf, List.mem_flatMap]
  exact ⟨v, hv, hb⟩

theorem valWF_undef (h : Heap) : ValWF h .undef := by
  intro b hb
  simp [HVal.refsOf] at hb

theorem valWF_getD {h : Heap} {a : Nat} {elems : List HVal}
    (hwf : HeapWF h) (hmem : (a, HNode.arr elems) ∈ h) (i : Nat) :
    ValWF h (elems.getD i .undef) := by
  by_cases hlt : i < elems.length
  · refine valWF_of_nodeVal hwf hmem ?_
    simp only [HNode.valsOf, List.getD_eq_getElem?_getD, List.getElem?_eq_getElem hlt,
      Option.getD_some]
    exact List.getElem_mem hlt
  · rw [List.getD_eq_default _ _ (Nat.le_of_not_lt hlt)]
    exact valWF_undef h

theorem valWF_heapProp {h : Heap} (hwf : HeapWF h) (a : Nat) (k : String) :
    ValWF h (heapPropH h a k) := by
  cases hfind : heapFind h a with
  | none =>
    simp only [heapPropH, hfind]
    exact valWF_undef h
  | some nd =>
    cases nd with
    | obj fields =>
      simp only [heapPropH, hfind]
      cases hfd : List.find? (fun f => f.1 == k) fields with
      | none => exact valWF_undef h
      | some f =>
        refine valWF_of_nodeVal hwf (heapFind_mem hfind) ?_
        simp only [HNode.valsOf]
        exact List.mem_map_of_mem _ (List.mem_of_find?_eq_some hfd)
    | arr el =>
      simp only [heapPropH, hfind]
      exact valWF_undef h
    | date t =>
      simp only [heapPropH, hfind]
      exact valWF_undef h
    | regexp s =>
      simp only [heapPropH, hfind]
      exact valWF_undef h

theorem filter_length_mono {α : Type} (l : List α) (p q : α → Bool)
    (himp : ∀ x, q x = true → p x = true) :
    (l.filter q).length ≤ (l.filter p).length := by
  induction l with
  | nil => simp
  | cons y t ih =>
    by_cases hq : q y = true
    · simp [List.filter, hq, himp y hq]
      omega
    · simp only [List.filter, hq]
      by_cases hp : p y = true <;> simp [hp] <;> omega

theorem filter_length_strict {α : Type} (l : List α) (p q : α → Bool)
    (himp : ∀ x, q x = true → p x = true)
    {w : α} (hw : w ∈ l) (hwp : p w = true) (hwq : q w = false) :
    (l.filter q).length < (l.filter p).length := by
  induction l with
  | nil => simp at hw
  | cons y t ih =>
    rcases List.mem_cons.mp hw with hwy | hwt
    · subst hwy
      simp only [List.filter, hwp, hwq]
      exact Nat.lt_succ_of_le (filter_length_mono t p q himp)
    · by_cases hq : q y = true
      · simp only [List.filter, hq, himp y hq, List.length_cons]
        exact Nat.succ_lt_succ (ih hwt)
      · simp only [List.filter, hq]
        by_cases hp : p y = true
        · simp only [hp, List.length_cons]
          exact Nat.lt_succ_of_lt (ih hwt)
        · simp only [Bool.not_eq_true] at hp
          simp only [hp]
          exact ih hwt

theorem natContains_iff {l : List Nat} {a : Nat} :
    l.contains a = true ↔ a ∈ l := by
  simp [List.contains_iff_exists_mem_beq]

theorem unstacked_push {h : Heap} {stack : List (Nat × Nat)} {a b : Nat}
    (ha : a ∈ h.map Prod.fst)
    (hnot : ((stack.map Prod.fst).contains a) = false) :
    unstackedCount h (stack ++ [(a, b)]) < unstackedCount h stack := by
  refine filter_length_strict _ _ _ ?_ ha ?_ ?_
  · intro x hx
    simp only [Bool.not_eq_true', ← Bool.not_eq_true] at hx ⊢
    intro hmem
    apply hx
    rw [natContains_iff] at hmem ⊢
    simp only [List.map_append, List.mem_append]
    exact .inl hmem
  · simp only [hnot, Bool.not_false]
  · simp [natContains_iff]

theorem bool_not_and_self (b : Bool) : (!b && b) = false := by
  cases b <;> rfl

theorem mem_of_getLastOpt {α : Type} {l : List α} {a : α}
    (h : l.getLast? = some a) : a ∈ l := by
  induction l with
  | nil => simp [List.getLast?] at h
  | cons b t ih =>
    cases t with
    | nil =>
      simp only [List.getLast?_singleton, Option.some.injEq] at h
      simp [h]
    | cons c u =>
      rw [List.getLast?_cons_cons] at h
      exact List.mem_cons_of_mem _ (ih h)

theorem scan_false_contains {stack : List (Nat × Nat)} {a : Nat}
    (h : ¬stack.any (fun p => p.1 == a) = true) :
    ((stack.map Prod.fst).contains a) = false := by
  rw [← Bool.not_eq_true, natContains_iff]
  intro hmem
  rcases List.mem_map.mp hmem with ⟨p, hp, hpa⟩
  exact h (List.any_eq_true.mpr ⟨p, hp, by simp [hpa]⟩)

theorem jsIndexOf_filterMap {ps : List (Option String)} {k : String} {rest : List String}
    (h : ps.filterMap id = k :: rest) :
    ∃ i, jsIndexOf ps (some k) = some i ∧ (ps.set i none).filterMap id = rest := by
  induction ps generalizing k rest with
  | nil => simp at h
  | cons o t ih =>
    cases o with
    | none =>
      simp only [List.filterMap_cons, id] at h
      obtain ⟨i, hi, hset⟩ := ih h
      exact ⟨i + 1, by simp [jsIndexOf, hi], by simpa [List.filterMap_cons] using hset⟩
    | some k0 =>
      simp only [List.filterMap_cons, id] at h
      obtain ⟨hk0, hrest⟩ := List.cons.inj h
      subst hk0
      exact ⟨0, by simp [jsIndexOf], by simpa [List.filterMap_cons] using hrest⟩

theorem objPass2H_all_none (fuel : Nat) (h : Heap) (path : List Key)
    (stack : List (Nat × Nat)) (ra : Nat) :
    ∀ ps : List (Option String), ps.filterMap id = [] →
      objPass2H fuel h path stack ps ra = some [] := by
  intro ps
  induction ps with
  | nil => intro _; simp [objPass2H]
  | cons o t ih =>
    intro hfm
    cases o with
    | none =>
      simp only [objPass2H]
      exact ih (by simpa [List.filterMap_cons] using hfm)
    | some k =>
      simp [List.filterMap_cons, id] at hfm

theorem objPassH_self (fuel : Nat) (h : Heap) (path : List Key)
    (stack : List (Nat × Nat)) (la : Nat)
    (hchild : ∀ k, deepDiffH fuel h (heapPropH h la k) (heapPropH h la k) path
      (some (.str k)) stack = some []) :
    ∀ ks ps, ps.filterMap id = ks →
      ∃ p', objPassH fuel h path stack ks ps la la = some ([], p') ∧
        p'.filterMap id = [] := by
  intro ks
  induction ks with
  | nil =>
    intro ps hfm
    exact ⟨ps, by simp [objPassH], hfm⟩
  | cons k rest ih =>
    intro ps hfm
    obtain ⟨i, hidx, hset⟩ := jsIndexOf_filterMap hfm
    obtain ⟨p', hp', hfm'⟩ := ih (ps.set i none) hset
    refine ⟨p', ?_, hfm'⟩
    simp [objPassH, hidx, hchild k, hp']

theorem arrLoopH_self (fuel : Nat) (h : Heap) (path : List Key)
    (stack : List (Nat × Nat)) (es : List HVal)
    (hchild : ∀ i, deepDiffH fuel h (es.getD i .undef) (es.getD i .undef) path
      (some (.idx i)) stack = some []) :
    ∀ i, arrLoopH fuel h path stack i es es = some [] := by
  intro i
  induction i with
  | zero =>
    have h0 := hchild 0
    simp only [List.getD_eq_getElem?_getD] at h0
    simp [arrLoopH, h0]
  | succ i' ih =>
    have h1 := hchild (i' + 1)
    simp only [List.getD_eq_getElem?_getD] at h1
    simp [arrLoopH, h1, ih]

theorem deepDiffH_self {h : Heap} (hwf : HeapWF h) :
    ∀ fuel x path key stack, ValWF h x → (∀ p ∈ stack, p.1 = p.2) →
      unstackedCount h stack < fuel →
      deepDiffH fuel h x x path key stack = some [] := by
  intro fuel
  induction fuel with
  | zero =>
    intro x path key stack _ _ hm
    exact absurd hm (Nat.not_lt_zero _)
  | succ fuel ih =>
    intro x path key stack hx hdiag hm
    cases x with
    | undef =>
      cases hlast : stack.getLast? with
      | none =>
        rw [deepDiffH.eq_def]
        simp [realTypeOfH, jsTypeofH, strictEqH, isNaNH, hlast]
      | some top =>
        have htop : top.1 = top.2 := hdiag top (mem_of_getLastOpt hlast)
        rw [deepDiffH.eq_def]
        simp only [hlast, htop]
        by_cases hS : (jsTruthyH (.ref top.2) && hasOwnPropH h (.ref top.2)
            (key.getD (.str "undefined"))) = true
        · simp [realTypeOfH, jsTypeofH, strictEqH, isNaNH, hS]
        · simp [realTypeOfH, jsTypeofH, strictEqH, isNaNH, hS]
    | null =>
      rw [deepDiffH.eq_def]
      simp [realTypeOfH, jsTypeofH, strictEqH, isNaNH]
    | bool b =>
      rw [deepDiffH.eq_def]
      simp [realTypeOfH, jsTypeofH, strictEqH, isNaNH]
    | num n =>
      rw [deepDiffH.eq_def]
      simp [realTypeOfH, jsTypeofH, strictEqH, isNaNH]
    | nan =>
      rw [deepDiffH.eq_def]
      simp [realTypeOfH, jsTypeofH, strictEqH, isNaNH]
    | str s =>
      rw [deepDiffH.eq_def]
      simp [realTypeOfH, jsTypeofH, strictEqH, isNaNH]
    | ref a =>
      have ha : a ∈ h.map Prod.fst := hx a (by simp [HVal.refsOf])
      obtain ⟨nd, hfind, hmemnd⟩ := heapFind_found ha
      cases nd with
      | regexp s =>
        rw [deepDiffH.eq_def]
        simp [realTypeOfH, hfind, regexpToStringH, jsTypeofH, strictEqH]
      | date t =>
        by_cases hscan : stack.any (fun p => p.1 == a) = true
        · rw [deepDiffH.eq_def]
          simp [realTypeOfH, hfind, jsTypeofH, strictEqH, hscan, dateValH]
        · rw [deepDiffH.eq_def]
          simp [realTypeOfH, hfind, jsTypeofH, strictEqH, hscan, dateValH,
            isArrNodeH, heapKeys, objPassH, objPass2H]
      | obj fields =>
        have hprep : ∀ hscan2 : ¬stack.any (fun p => p.1 == a) = true,
            unstackedCount h (stack ++ [(a, a)]) < fuel ∧
            (∀ p ∈ stack ++ [(a, a)], p.1 = p.2) := by
          intro hscan2
          constructor
          · have hd := @unstacked_push h stack a a ha (scan_false_contains hscan2)
            omega
          · intro p hp
            rcases List.mem_append.mp hp with hp | hp
            · exact hdiag p hp
            · simp only [List.mem_singleton] at hp
              subst hp
              rfl
        by_cases hscan : stack.any (fun p => p.1 == a) = true
        · rw [deepDiffH.eq_def]
          simp [realTypeOfH, hfind, jsTypeofH, strictEqH, hscan]
        · obtain ⟨hm', hdiag'⟩ := hprep hscan
          obtain ⟨cp, hcp⟩ : ∃ cp : List Key, (match key with
              | some kk => path ++ [kk]
              | none => path) = cp := ⟨_, rfl⟩
          have hchild : ∀ k, deepDiffH fuel h (heapPropH h a k) (heapPropH h a k)
              cp (some (.str k)) (stack ++ [(a, a)]) = some [] :=
            fun k => ih _ cp _ _ (valWF_heapProp hwf a k) hdiag' hm'
          obtain ⟨p', hpass, hfm'⟩ := objPassH_self fuel h cp (stack ++ [(a, a)]) a
            hchild (fields.map Prod.fst) ((fields.map Prod.fst).map some)
            (by simp [List.filterMap_map])
          have hpass2 := objPass2H_all_none fuel h cp (stack ++ [(a, a)]) a p' hfm'
          simp only [List.map_map, Function.comp] at hpass
          rw [deepDiffH.eq_def]
          simp [realTypeOfH, hfind, jsTypeofH, strictEqH, hscan,
            isArrNodeH, heapKeys, hcp, hpass, hpass2, Function.comp]
      | arr elems =>
        have hprep : ∀ hscan2 : ¬stack.any (fun p => p.1 == a) = true,
            unstackedCount h (stack ++ [(a, a)]) < fuel ∧
            (∀ p ∈ stack ++ [(a, a)], p.1 = p.2) := by
          intro hscan2
          constructor
          · have hd := @unstacked_push h stack a a ha (scan_false_contains hscan2)
            omega
          · intro p hp
            rcases List.mem_append.mp hp with hp | hp
            · exact hdiag p hp
            · simp only [List.mem_singleton] at hp
              subst hp
              rfl
        by_cases hscan : stack.any (fun p => p.1 == a) = true
        · rw [deepDiffH.eq_def]
          simp [realTypeOfH, hfind, jsTypeofH, strictEqH, hscan]
        · obtain ⟨hm', hdiag'⟩ := hprep hscan
          have hchild : ∀ cp i, deepDiffH fuel h (elems.getD i .undef)
              (elems.getD i .undef) cp (some (.idx i)) (stack ++ [(a, a)]) = some [] :=
            fun cp i => ih _ cp _ _ (valWF_getD hwf hmemnd i) hdiag' hm'
          have hloop := arrLoopH_self fuel h
            (match key with
              | some kk => path ++ [kk]
              | none => path) (stack ++ [(a, a)]) elems (hchild _)
          rw [deepDiffH.eq_def]
          cases hlen : elems.length with
          | zero =>
            simp [realTypeOfH, hfind, jsTypeofH, strictEqH, hscan,
              isArrNodeH, heapElems, tailNewsH, tailDelsH, hlen]
          | succ c =>
            have hloop' := hloop c
            simp [realTypeOfH, hfind, jsTypeofH, strictEqH, hscan,
              isArrNodeH, heapElems, tailNewsH, tailDelsH, hlen, hloop']

/-- C5: over every well-formed heap, diffing any value — including a
self-referential one — against itself with default options terminates
(the walk completes within the depth bound of one frame per allocated
address, the cycle guard cutting every revisit, and nothing is thrown:
every call returns) and produces the undefined no-changes sentinel. -/
theorem c5_diff_self_terminates_no_changes (h : Heap) (x : HVal)
    (hwf : HeapWF h) (hx : ValWF h x) :
    diffTopH h x x = some none := by
  have hrun := deepDiffH_self hwf (h.length + 2) x [] none [] hx
    (by intro p hp; simp at hp)
    (by
      have hle : unstackedCount h [] ≤ (h.map Prod.fst).length :=
        List.length_filter_le _ _
      simp only [List.length_map] at hle
      omega)
  simp [diffTopH, hrun]

/-- Witness for C5 at the canonical cyclic value: a one-allocation heap
holding the object `a` with `a.self` referring back to `a`. -/
theorem c5_diff_self_terminates_no_changes_witness :
    HeapWF [(0, HNode.obj [("self", HVal.ref 0)])] ∧
    ValWF [(0, HNode.obj [("self", HVal.ref 0)])] (HVal.ref 0) ∧
    diffTopH [(0, HNode.obj [("self", HVal.ref 0)])] (HVal.ref 0) (HVal.ref 0) =
      some none :=
  ⟨by unfold HeapWF; decide, by unfold ValWF; decide,
   c5_diff_self_terminates_no_changes _ _ (by unfold HeapWF; decide)
     (by unfold ValWF; decide)⟩
